import Mathlib

/-!
Verification development for the SVG text layout and shaping engine in
`libs/flake/text/KoSvgTextShape.cpp` (Krita).  The definitions below are a
shallow embedding of the data model and algorithms of that file: `qreal`
(double) values are modelled as rationals, Qt containers as lists, and the
in-place mutation of the C++ code as explicit state passing.  Geometry
primitives that the engine consumes from Qt (square roots in `QLineF::length`,
`QPainterPath` point containment) are abstracted as oracle parameters, so the
control flow of the engine itself is modelled exactly.
-/

namespace KoSvgTextShapeProof

/-- Model of Qt's `QPointF` with rational coordinates. -/
structure QPointF where
  x : ℚ
  y : ℚ
deriving DecidableEq, Repr

instance : Add QPointF := ⟨fun a b => ⟨a.x + b.x, a.y + b.y⟩⟩

instance : Sub QPointF := ⟨fun a b => ⟨a.x - b.x, a.y - b.y⟩⟩

instance : Neg QPointF := ⟨fun a => ⟨-a.x, -a.y⟩⟩

instance : Zero QPointF := ⟨⟨0, 0⟩⟩

/-- Scalar multiplication for `QPointF` (used for `advance * 0.5` etc.). -/
def QPointF.smul (q : ℚ) (p : QPointF) : QPointF := ⟨q * p.x, q * p.y⟩

/-- Model of Qt's `QRectF`: origin plus (possibly negative) width/height. -/
structure QRectF where
  rx : ℚ
  ry : ℚ
  rw : ℚ
  rh : ℚ
deriving DecidableEq, Repr

/-- `QRectF::isNull`: both width and height are exactly zero. -/
def QRectF.isNull (r : QRectF) : Bool := r.rw == 0 && r.rh == 0

/-- `QRectF::isEmpty`: width or height is not positive. -/
def QRectF.isEmpty (r : QRectF) : Bool := r.rw ≤ 0 || r.rh ≤ 0

/-- `QRectF::translated`. -/
def QRectF.translated (r : QRectF) (p : QPointF) : QRectF :=
  ⟨r.rx + p.x, r.ry + p.y, r.rw, r.rh⟩

/-- `QRectF::operator|` (united), following the Qt source: a null rectangle
is the identity, otherwise the bounding rectangle of the two (handling
negative widths/heights like Qt does). -/
def QRectF.united (r s : QRectF) : QRectF :=
  if r.isNull then s
  else if s.isNull then r
  else
    let left₀ := if r.rw < 0 then r.rx + r.rw else r.rx
    let right₀ := if r.rw < 0 then r.rx else r.rx + r.rw
    let left := if s.rw < 0 then min left₀ (s.rx + s.rw) else min left₀ s.rx
    let right := if s.rw < 0 then max right₀ s.rx else max right₀ (s.rx + s.rw)
    let top₀ := if r.rh < 0 then r.ry + r.rh else r.ry
    let bottom₀ := if r.rh < 0 then r.ry else r.ry + r.rh
    let top := if s.rh < 0 then min top₀ (s.ry + s.rh) else min top₀ s.ry
    let bottom := if s.rh < 0 then max bottom₀ s.ry else max bottom₀ (s.ry + s.rh)
    ⟨left, top, right - left, bottom - top⟩

/-- `QRectF::width`. -/
def QRectF.width (r : QRectF) : ℚ := r.rw

/-- `QRectF::height`. -/
def QRectF.height (r : QRectF) : ℚ := r.rh

/-- The default-constructed `QRectF()`: all components zero. -/
def QRectF.null : QRectF := ⟨0, 0, 0, 0⟩

/-- Model of Qt's `QLineF` as its two endpoints. -/
structure QLineF where
  p1 : QPointF
  p2 : QPointF
deriving DecidableEq, Repr

/-- `QLineF::center`. -/
def QLineF.center (l : QLineF) : QPointF :=
  ⟨(l.p1.x + l.p2.x) / 2, (l.p1.y + l.p2.y) / 2⟩

/-- `QLineF::length` is `sqrt(dx² + dy²)`; square roots are irrational, so the
model takes the floating-point square root as an oracle function `sq`. -/
def QLineF.lengthWith (sq : ℚ → ℚ) (l : QLineF) : ℚ :=
  sq ((l.p2.x - l.p1.x) * (l.p2.x - l.p1.x) + (l.p2.y - l.p1.y) * (l.p2.y - l.p1.y))

/-- Qt's `qRound` on doubles: add or subtract one half, then truncate toward
zero. -/
def qRound (x : ℚ) : ℤ :=
  if 0 ≤ x then ⌊x + 1/2⌋ else -⌊(-x) + 1/2⌋

/-- `QVector::value(i)`: the element at `i`, or a default when out of range. -/
def listValue {α : Type} (l : List α) (i : ℤ) (d : α) : α :=
  if h : 0 ≤ i ∧ i.toNat < l.length then l.get ⟨i.toNat, h.2⟩ else d

/-- Break classification of a character (`enum BreakType`). -/
inductive BreakType where
  | NoBreak
  | SoftBreak
  | HardBreak
deriving DecidableEq, Repr

/-- Line-edge behaviour of a character (`enum LineEdgeBehaviour`). -/
inductive LineEdgeBehaviour where
  | NoChange
  | Collapse
  | HangBehaviour
  | ForceHang
  | ConditionallyHang
deriving DecidableEq, Repr

/-- `KoSvgText::TextAnchor`. -/
inductive TextAnchor where
  | AnchorStart
  | AnchorMiddle
  | AnchorEnd
deriving DecidableEq, Repr

/-- `KoSvgText::Direction`. -/
inductive Direction where
  | DirectionLeftToRight
  | DirectionRightToLeft
deriving DecidableEq, Repr

/-- `KoSvgText::WritingMode`. -/
inductive WritingMode where
  | HorizontalTB
  | VerticalRL
  | VerticalLR
deriving DecidableEq, Repr

/-- `QFont::Style` (normal / italic / oblique). -/
inductive FontStyle where
  | StyleNormal
  | StyleItalic
  | StyleOblique
deriving DecidableEq, Repr

/-- `struct CharacterResult` (the fields consumed by the algorithms modelled
here; glyph images and color layers are omitted as no modelled code path
reads them).  Defaults mirror the in-class initializers of the source. -/
structure CharacterResult where
  finalPosition : QPointF := 0
  hidden : Bool := false
  addressable : Bool := true
  middle : Bool := false
  anchored_chunk : Bool := false
  path : List QPointF := []
  boundingBox : QRectF := QRectF.null
  visualIndex : ℤ := -1
  cssPosition : QPointF := 0
  advance : QPointF := 0
  breakType : BreakType := BreakType.NoBreak
  lineEnd : LineEdgeBehaviour := LineEdgeBehaviour.NoChange
  lineStart : LineEdgeBehaviour := LineEdgeBehaviour.NoChange
  justifyBefore : Bool := false
  justifyAfter : Bool := false
  isHanging : Bool := false
  textLengthApplied : Bool := false
  overflowWrap : Bool := false
  halfLeading : ℚ := 0
  ascent : ℚ := 0
  descent : ℚ := 0
  fontStyle : FontStyle := FontStyle.StyleNormal
  anchor : TextAnchor := TextAnchor.AnchorStart
  direction : Direction := Direction.DirectionLeftToRight
deriving DecidableEq, Repr

instance : Inhabited CharacterResult := ⟨{}⟩

/-- `struct LineChunk`. -/
structure LineChunk where
  length : QLineF := ⟨0, 0⟩
  chunkIndices : List ℕ := []
  boundingBox : QRectF := QRectF.null
deriving DecidableEq, Repr

instance : Inhabited LineChunk := ⟨{}⟩

/-- `struct LineBox`. -/
structure LineBox where
  chunks : List LineChunk := []
  currentChunk : ℤ := -1
  expectedLineTop : ℚ := 0
  actualLineTop : ℚ := 0
  actualLineBottom : ℚ := 0
  baselineTop : QPointF := 0
  baselineBottom : QPointF := 0
  textIndent : QPointF := 0
  firstLine : Bool := false
  lastLine : Bool := false
  lineFinalized : Bool := false
  justifyLine : Bool := false
deriving DecidableEq, Repr

/-- The `LineBox(QPointF start, QPointF end)` constructor. -/
def LineBox.ofStartEnd (s e : QPointF) : LineBox :=
  { chunks := [{ length := ⟨s, e⟩ }], currentChunk := 0 }

/-- The `LineBox(QVector<QLineF> lineWidths, bool ltr, QPointF indent)`
constructor used by the shape-flowing strategy. -/
def LineBox.ofLineWidths (lineWidths : List QLineF) (ltr : Bool) (indent : QPointF) : LineBox :=
  if ltr then
    { chunks := lineWidths.map (fun l => { length := l }),
      currentChunk := if lineWidths.isEmpty then -1 else 0,
      textIndent := indent }
  else
    { chunks := (lineWidths.map (fun l => { length := ⟨l.p2, l.p1⟩ })).reverse,
      currentChunk := if lineWidths.isEmpty then -1 else 0,
      textIndent := indent }

/-- `LineBox::chunk()`: `chunks.value(currentChunk)`. -/
def LineBox.chunk (lb : LineBox) : LineChunk :=
  listValue lb.chunks lb.currentChunk default

/-- `LineBox::setCurrentChunk`. -/
def LineBox.setCurrentChunk (lb : LineBox) (c : LineChunk) : LineBox :=
  let cur := max lb.currentChunk 0
  if cur < lb.chunks.length then
    { lb with currentChunk := cur, chunks := lb.chunks.set cur.toNat c }
  else
    { lb with currentChunk := cur, chunks := lb.chunks ++ [c] }

/-- `LineBox::clearAndAdjust`. -/
def LineBox.clearAndAdjust (lb : LineBox) (isHorizontal : Bool) (current : QPointF)
    (indent : QPointF) : LineBox :=
  let length := (listValue lb.chunks lb.currentChunk default).length
  let length :=
    if isHorizontal then QLineF.mk ⟨length.p1.x, current.y⟩ ⟨length.p2.x, current.y⟩
    else QLineF.mk ⟨current.x, length.p1.y⟩ ⟨current.x, length.p2.y⟩
  { lb with
    actualLineBottom := 0
    actualLineTop := 0
    textIndent := indent
    chunks := [{ length := length }]
    currentChunk := 0
    firstLine := false }

/-- `LineBox::isEmpty`. -/
def LineBox.isEmpty (lb : LineBox) : Bool :=
  if lb.chunks.isEmpty then true
  else (listValue lb.chunks lb.currentChunk default).chunkIndices.isEmpty

/-- `LineBox::setCurrentChunkForPos`. -/
def LineBox.setCurrentChunkForPos (lb : LineBox) (pos : QPointF) (isHorizontal : Bool) : LineBox :=
  let rec go (i : ℕ) (cs : List LineChunk) (lb : LineBox) : LineBox :=
    match cs with
    | [] => lb
    | c :: rest =>
      if isHorizontal then
        if pos.x < max c.length.p1.x c.length.p2.x ∧ pos.x ≥ min c.length.p1.x c.length.p2.x then
          { lb with currentChunk := i }
        else go (i + 1) rest lb
      else
        if pos.y < max c.length.p1.y c.length.p2.y ∧ pos.y ≥ min c.length.p1.y c.length.p2.y then
          { lb with currentChunk := i }
        else go (i + 1) rest lb
  go 0 lb.chunks lb

/-- A `QMap<int,int>` keyed by (possibly negative) visual indices: a sorted
association list.  `insert` overwrites an existing key, like Qt. -/
def mapInsert (k : ℤ) (v : ℕ) : List (ℤ × ℕ) → List (ℤ × ℕ)
  | [] => [(k, v)]
  | (k', v') :: rest =>
    if k < k' then (k, v) :: (k', v') :: rest
    else if k = k' then (k, v) :: rest
    else (k', v') :: mapInsert k v rest

/-- Values of the map in ascending key order (Qt's `QMap::values`). -/
def mapValues (m : List (ℤ × ℕ)) : List ℕ := m.map Prod.snd

/-- Loop state of `addWordToLine`'s character loop. -/
structure AwtlAcc where
  result : List CharacterResult
  currentPos : QPointF
  lineAdvance : QPointF
  bbox : QRectF
  top : ℚ
  bottom : ℚ

/-- One iteration of the `Q_FOREACH (const int j, wordIndices)` loop in
`addWordToLine`. -/
def awtlStep (firstVal : ℕ) (firstLine ltr : Bool) (acc : AwtlAcc) (j : ℕ) : AwtlAcc :=
  let cr := acc.result.getD j default
  if acc.bbox.isEmpty ∧ j = firstVal then
    if cr.lineStart = LineEdgeBehaviour.Collapse then
      { acc with result := acc.result.set j { cr with addressable := false, hidden := true } }
    else
      let cr := { cr with anchored_chunk := true }
      let pc :=
        if cr.lineStart = LineEdgeBehaviour.HangBehaviour ∧ firstLine then
          (if ltr then acc.currentPos - cr.advance else acc.currentPos + cr.advance,
           { cr with isHanging := true })
        else (acc.currentPos, cr)
      let cr := { pc.2 with cssPosition := pc.1 }
      let pos := pc.1 + cr.advance
      { result := acc.result.set j cr
        currentPos := pos
        lineAdvance := pos
        bbox := acc.bbox.united (cr.boundingBox.translated cr.cssPosition)
        top := max |cr.ascent - cr.halfLeading| acc.top
        bottom := max |cr.descent + cr.halfLeading| acc.bottom }
  else
    let cr := { cr with cssPosition := acc.currentPos }
    let pos := acc.currentPos + cr.advance
    { result := acc.result.set j cr
      currentPos := pos
      lineAdvance := pos
      bbox := acc.bbox.united (cr.boundingBox.translated cr.cssPosition)
      top := max |cr.ascent - cr.halfLeading| acc.top
      bottom := max |cr.descent + cr.halfLeading| acc.bottom }

/-- `addWordToLine` from the source: place a word's characters at the running
cursor, fold them into the current chunk of the current line, and clear the
word buffer (the caller's `wordIndices` becomes empty, so the returned tuple
does not include it). -/
def addWordToLine (result : List CharacterResult) (currentPos : QPointF)
    (wordIndices : List ℕ) (currentLine : LineBox) (ltr : Bool) :
    List CharacterResult × QPointF × LineBox :=
  let chunk0 := currentLine.chunk
  let acc0 : AwtlAcc :=
    { result := result, currentPos := currentPos, lineAdvance := currentPos,
      bbox := chunk0.boundingBox, top := currentLine.actualLineTop,
      bottom := currentLine.actualLineBottom }
  let acc := wordIndices.foldl (awtlStep (wordIndices.headD 0) currentLine.firstLine ltr) acc0
  let chunk :=
    { chunk0 with
      boundingBox := acc.bbox
      chunkIndices := chunk0.chunkIndices ++ wordIndices }
  (acc.result, acc.lineAdvance,
   ({ currentLine with
      actualLineTop := acc.top
      actualLineBottom := acc.bottom }).setCurrentChunk chunk)

/-- The backwards `while (it.hasPrevious())` loop of `handleCollapseAndHang`,
over the reversed index list. -/
def hcahGo (endPos : QPointF) (inlineSize ltr atEnd : Bool) :
    List ℕ → List CharacterResult → List CharacterResult
  | [], result => result
  | j :: rest, result =>
    let cr := result.getD j default
    let result :=
      if cr.lineEnd = LineEdgeBehaviour.Collapse then
        result.set j { cr with addressable := false, hidden := true }
      else if cr.lineEnd = LineEdgeBehaviour.ForceHang ∧ inlineSize then
        let pos := if ltr then endPos else endPos - cr.advance
        result.set j { cr with cssPosition := pos, finalPosition := pos, isHanging := true }
      else if cr.lineEnd = LineEdgeBehaviour.HangBehaviour ∧ inlineSize ∧ atEnd then
        let pos := if ltr then endPos else endPos - cr.advance
        result.set j { cr with cssPosition := pos, finalPosition := pos, isHanging := true }
      else result
    if cr.lineEnd ≠ LineEdgeBehaviour.Collapse then result
    else hcahGo endPos inlineSize ltr atEnd rest result

/-- `handleCollapseAndHang`: collapse and hang resolution at the end of a
line chunk. -/
def handleCollapseAndHang (result : List CharacterResult) (chunk : LineChunk)
    (inlineSize ltr atEnd : Bool) : List CharacterResult :=
  if chunk.chunkIndices.isEmpty then result
  else hcahGo chunk.length.p2 inlineSize ltr atEnd chunk.chunkIndices.reverse result

/-- The extent-accumulation loop of `applyInlineSizeAnchoring` (computes the
min/max inline extent `(a, b)` over non-hanging addressable characters). -/
def aisaExtent (result : List CharacterResult) (isHorizontal : Bool) (firstVal : ℕ)
    (lineIndices : List ℕ) : ℚ × ℚ :=
  lineIndices.foldl
    (fun ab i =>
      let cr := result.getD i default
      if ¬cr.addressable ∨ cr.isHanging then ab
      else
        let pos := if isHorizontal then cr.finalPosition.x else cr.finalPosition.y
        let advance := if isHorizontal then cr.advance.x else cr.advance.y
        if i = firstVal then (min pos (pos + advance), max pos (pos + advance))
        else (min ab.1 (min pos (pos + advance)), max ab.2 (max pos (pos + advance))))
    (0, 0)

/-- `applyInlineSizeAnchoring`: shift a chunk so that its extent aligns with
the anchor point according to `text-anchor` and direction. -/
def applyInlineSizeAnchoring (result : List CharacterResult) (chunk : LineChunk)
    (anchor : TextAnchor) (anchorPoint : QPointF) (ltr isHorizontal : Bool)
    (textIndent : QPointF) : List CharacterResult :=
  let lineIndices := chunk.chunkIndices
  let startPos := anchorPoint
  let shift := if isHorizontal then startPos.x else startPos.y
  let ab := aisaExtent result isHorizontal (lineIndices.headD 0) lineIndices
  let a := ab.1
  let b := ab.2
  let a := if anchor = TextAnchor.AnchorStart ∧ ltr then
      a - (if isHorizontal then textIndent.x else textIndent.y) else a
  let b := if anchor = TextAnchor.AnchorStart ∧ ¬ltr then
      b + (if isHorizontal then textIndent.x else textIndent.y) else b
  let aStartPos := chunk.length.p1
  let inlineWidth := aStartPos - chunk.length.p2
  let aEndPos := aStartPos - inlineWidth
  let aStartPos' := if anchor = TextAnchor.AnchorEnd then aStartPos + inlineWidth else aStartPos
  let aEndPos' := if anchor = TextAnchor.AnchorEnd then aStartPos else aEndPos
  let middle := ¬((anchor = TextAnchor.AnchorStart ∧ ltr) ∨ (anchor = TextAnchor.AnchorEnd ∧ ¬ltr))
    ∧ ¬((anchor = TextAnchor.AnchorEnd ∧ ltr) ∨ (anchor = TextAnchor.AnchorStart ∧ ¬ltr))
  let aEndPos'' := if middle then QPointF.smul (1/2) (startPos + aEndPos') else aEndPos'
  let aStartPos'' := if middle then startPos - aEndPos'' else aStartPos'
  let shift :=
    if (anchor = TextAnchor.AnchorStart ∧ ltr) ∨ (anchor = TextAnchor.AnchorEnd ∧ ¬ltr) then
      shift - a
    else if (anchor = TextAnchor.AnchorEnd ∧ ltr) ∨ (anchor = TextAnchor.AnchorStart ∧ ¬ltr) then
      shift - b
    else shift - (a + b) / 2
  let shiftP : QPointF := if isHorizontal then ⟨shift, 0⟩ else ⟨0, shift⟩
  lineIndices.foldl
    (fun result j =>
      let cr := result.getD j default
      if ¬cr.isHanging then
        let pos := cr.cssPosition + shiftP
        result.set j { cr with cssPosition := pos, finalPosition := pos }
      else if cr.anchored_chunk then
        let s := if ltr then aStartPos'' - cr.advance else aStartPos''
        result.set j { cr with cssPosition := s, finalPosition := s }
      else if cr.lineEnd ≠ LineEdgeBehaviour.NoChange then
        let s := if ltr then aEndPos'' else aEndPos'' - cr.advance
        result.set j { cr with cssPosition := s, finalPosition := s }
      else result)
    result

/-- The empty-hard-break fixup at the head of `lineHeightOffset`: when the
line has a single chunk and no accumulated metrics, take them from the first
stored character. -/
def lhoMetricFix (result : List CharacterResult) (currentLine : LineBox) : LineBox :=
  if currentLine.chunks.length = 1 ∧ currentLine.actualLineTop = 0 ∧
      currentLine.actualLineBottom = 0 then
    let chunkIndices := (currentLine.chunks.getD 0 default).chunkIndices
    match chunkIndices.head? with
    | some first =>
      let cr := result.getD first default
      { currentLine with
        actualLineTop := max |cr.ascent - cr.halfLeading| currentLine.actualLineTop
        actualLineBottom := max |cr.descent + cr.halfLeading| currentLine.actualLineBottom }
    | none => currentLine
  else currentLine

/-- The baseline-vector assignment of `lineHeightOffset`. -/
def lhoBaselines (writingMode : WritingMode) (lineTop lineBottom : QPointF)
    (currentLine : LineBox) : LineBox :=
  match writingMode with
  | WritingMode.HorizontalTB =>
    { currentLine with baselineTop := -lineTop, baselineBottom := lineBottom }
  | _ => { currentLine with baselineTop := lineTop, baselineBottom := -lineBottom }

/-- The per-character shift applied by `lineHeightOffset`. -/
def lhoShift (delta : QPointF) (result : List CharacterResult) (j : ℕ) : CharacterResult :=
  let cr := result.getD j default
  let pos := cr.cssPosition + delta
  { cr with cssPosition := pos, finalPosition := pos }

/-- `lineHeightOffset`: offset the finished line by its ascent (or correction
offset on the first line) and return the advance to the next line.  The
source mutates per-chunk copies of `length`/`boundingBox` inside `Q_FOREACH`,
which Qt discards, so only `result` and the line metrics change. -/
def lineHeightOffset (writingMode : WritingMode) (result : List CharacterResult)
    (currentLine : LineBox) (firstLine : Bool) :
    QPointF × List CharacterResult × LineBox :=
  if currentLine.chunks.isEmpty then (0, result, currentLine)
  else
    let currentLine := lhoMetricFix result currentLine
    let expectedLineTop := max currentLine.expectedLineTop currentLine.actualLineTop
    let lt := currentLine.actualLineTop
    let lb := currentLine.actualLineBottom
    let lineTop : QPointF :=
      match writingMode with
      | WritingMode.HorizontalTB => ⟨0, lt⟩
      | WritingMode.VerticalLR => ⟨lt, 0⟩
      | WritingMode.VerticalRL => ⟨-lt, 0⟩
    let lineBottom : QPointF :=
      match writingMode with
      | WritingMode.HorizontalTB => ⟨0, lb⟩
      | WritingMode.VerticalLR => ⟨lb, 0⟩
      | WritingMode.VerticalRL => ⟨-lb, 0⟩
    let correctionOffset0 : QPointF :=
      match writingMode with
      | WritingMode.HorizontalTB => ⟨0, expectedLineTop⟩
      | WritingMode.VerticalLR => ⟨expectedLineTop, 0⟩
      | WritingMode.VerticalRL => ⟨-expectedLineTop, 0⟩
    let currentLine := lhoBaselines writingMode lineTop lineBottom currentLine
    let correctionOffset := correctionOffset0 - lineTop
    let allIndices := currentLine.chunks.flatMap LineChunk.chunkIndices
    if ¬firstLine then
      (lineTop + lineBottom,
       allIndices.foldl (fun result j => result.set j (lhoShift lineTop result j)) result,
       currentLine)
    else
      (lineBottom - correctionOffset,
       allIndices.foldl
         (fun result j => result.set j (lhoShift (-correctionOffset) result j)) result,
       currentLine)

/-- The body of `finalizeLine`'s per-chunk loop (collapse/hang handling,
justification, visual-order position assignment, inline-size anchoring). -/
def finalizeChunk (sq : ℚ → ℚ) (anchor : TextAnchor) (ltr isHorizontal : Bool)
    (inlineSize textInShape lastLine justifyLine : Bool) (textIndent lineOffset : QPointF)
    (st : List CharacterResult × QPointF) (currentChunk : LineChunk) :
    List CharacterResult × QPointF :=
  let result := st.1
  let visualToLogical := currentChunk.chunkIndices.foldl
    (fun m j => mapInsert (result.getD j default).visualIndex j m) []
  let currentPos := lineOffset
  let result := handleCollapseAndHang result currentChunk inlineSize ltr lastLine
  let vals := mapValues visualToLogical
  let justifyOffset : QPointF :=
    if justifyLine then
      let justificationCount := vals.foldl
        (fun n j =>
          let cr := result.getD j default
          if ¬cr.addressable ∨ cr.isHanging then n
          else
            let n := if cr.justifyBefore ∧ ¬(some j = vals.head?) then n + 1 else n
            if cr.justifyAfter ∧ ¬(some j = vals.getLast?) then n + 1 else n)
        (0 : ℕ)
      if justificationCount > 0 then
        let extent := if isHorizontal then currentChunk.boundingBox.width
                      else currentChunk.boundingBox.height
        let val := (currentChunk.length.lengthWith sq - extent) / justificationCount
        if isHorizontal then ⟨val, 0⟩ else ⟨0, val⟩
      else 0
    else 0
  let rp := vals.foldl
    (fun (rp : List CharacterResult × QPointF) j =>
      let result := rp.1
      let currentPos := rp.2
      let cr := result.getD j default
      if ¬cr.addressable ∨ cr.isHanging then rp
      else
        let currentPos := if cr.justifyBefore then currentPos + justifyOffset else currentPos
        let result := result.set j
          { cr with cssPosition := currentPos, finalPosition := currentPos }
        let currentPos := currentPos + cr.advance
        (result, if cr.justifyAfter then currentPos + justifyOffset else currentPos))
    (result, currentPos)
  if inlineSize then
    let anchorPoint :=
      if textInShape then
        if anchor = TextAnchor.AnchorMiddle then currentChunk.length.center
        else if anchor = TextAnchor.AnchorEnd then currentChunk.length.p2
        else currentChunk.length.p1
      else currentChunk.length.p1
    (applyInlineSizeAnchoring rp.1 currentChunk anchor anchorPoint ltr isHorizontal textIndent,
     rp.2)
  else rp

/-- `finalizeLine`: hang/collapse, justification, visual-order positioning,
anchoring, then the line-height offset.  Returns the updated
`(result, currentPos, currentLine, lineOffset)`. -/
def finalizeLine (sq : ℚ → ℚ) (result : List CharacterResult) (currentLine : LineBox)
    (lineOffset : QPointF) (anchor : TextAnchor) (writingMode : WritingMode)
    (ltr inlineSize textInShape : Bool) :
    List CharacterResult × QPointF × LineBox × QPointF :=
  let isHorizontal := writingMode = WritingMode.HorizontalTB
  let firstLine := if textInShape then true else currentLine.firstLine
  let rp := currentLine.chunks.foldl
    (finalizeChunk sq anchor ltr isHorizontal inlineSize textInShape currentLine.lastLine
      currentLine.justifyLine currentLine.textIndent lineOffset)
    (result, lineOffset)
  let lho := lineHeightOffset writingMode rp.1 currentLine firstLine
  let lineOffset := lineOffset + lho.1
  (lho.2.1, lineOffset, lho.2.2, lineOffset)

/-- `KoSvgText::AutoValue`: either `auto` or a custom numeric value. -/
structure AutoValue where
  isAuto : Bool := true
  customValue : ℚ := 0
deriving DecidableEq, Repr

/-- `KoSvgText::TextIndentInfo`. -/
structure TextIndentInfo where
  value : ℚ := 0
  isPercentage : Bool := false
  hanging : Bool := false
  eachLine : Bool := false
deriving DecidableEq, Repr

/-- The properties read by `breakLines` from `KoSvgTextProperties`. -/
structure BLConfig where
  writingMode : WritingMode := WritingMode.HorizontalTB
  direction : Direction := Direction.DirectionLeftToRight
  inlineSize : AutoValue := {}
  anchor : TextAnchor := TextAnchor.AnchorStart
  textIndentInfo : TextIndentInfo := {}
deriving DecidableEq, Repr

/-- `bool ltr = direction == KoSvgText::DirectionLeftToRight`. -/
def BLConfig.ltr (c : BLConfig) : Bool := c.direction = Direction.DirectionLeftToRight

/-- `bool isHorizontal = writingMode == KoSvgText::HorizontalTB`. -/
def BLConfig.isHorizontal (c : BLConfig) : Bool := c.writingMode = WritingMode.HorizontalTB

/-- The mutable state threaded through `breakLines`'s character loop. -/
structure BLState where
  result : List CharacterResult
  lineBoxes : List LineBox
  currentLine : LineBox
  wordIndices : List ℕ
  wordAdvance : QPointF
  currentPos : QPointF
  lineOffset : QPointF
deriving DecidableEq, Repr

/-- The inline-axis coordinate of a point (`.x()` for horizontal writing
modes, `.y()` for vertical ones), the recurring
`isHorizontal ? p.x() : p.y()` pattern of the source. -/
def inlineCoord (isHorizontal : Bool) (p : QPointF) : ℚ :=
  if isHorizontal then p.x else p.y

/-- The `text-indent` point computed at the head of `breakLines`.  (In the
source, the `isPercentage` multiplication happens while `textIndent` is still
zero and is then overwritten, so it has no effect.) -/
def blTextIndent (cfg : BLConfig) : QPointF :=
  if ¬cfg.inlineSize.isAuto then
    if cfg.isHorizontal then ⟨cfg.textIndentInfo.value, 0⟩ else ⟨0, cfg.textIndentInfo.value⟩
  else 0

/-- The `endPos` of the initial line (used for hanging glyphs). -/
def blEndPos (cfg : BLConfig) (startPos : QPointF) : QPointF :=
  if ¬cfg.inlineSize.isAuto then
    if cfg.isHorizontal then
      if cfg.ltr then ⟨startPos.x + cfg.inlineSize.customValue, 0⟩
      else ⟨startPos.x - cfg.inlineSize.customValue, 0⟩
    else
      if cfg.ltr then ⟨0, startPos.y + cfg.inlineSize.customValue⟩
      else ⟨0, startPos.y - cfg.inlineSize.customValue⟩
  else 0

/-- The state of `breakLines` just before the character loop starts. -/
def blInit (cfg : BLConfig) (result : List CharacterResult) (startPos : QPointF) : BLState :=
  let textIndent := blTextIndent cfg
  let currentLine := { LineBox.ofStartEnd startPos (blEndPos cfg startPos) with firstLine := true }
  let useIndent := ¬cfg.textIndentInfo.hanging ∧ ¬cfg.inlineSize.isAuto
  { result := result
    lineBoxes := []
    currentLine := if useIndent then { currentLine with textIndent := textIndent } else currentLine
    wordIndices := []
    wordAdvance := 0
    currentPos := if useIndent then startPos + textIndent else startPos
    lineOffset := startPos }

/-- Advance accumulation, word collection and `lastLine` flagging: the loop
body of `breakLines` up to the break checks. -/
def blAccum (isLast : Bool) (st : BLState) (index : ℕ) (charResult : CharacterResult) : BLState :=
  let doNotCountAdvance :=
    charResult.lineEnd ≠ LineEdgeBehaviour.NoChange ∧
      ¬(st.currentLine.isEmpty ∧ st.wordIndices.isEmpty)
  let wordAdvance :=
    if ¬doNotCountAdvance then
      if st.wordIndices.isEmpty then charResult.advance else st.wordAdvance + charResult.advance
    else st.wordAdvance
  { st with
    wordAdvance := wordAdvance
    wordIndices := st.wordIndices ++ [index]
    currentLine := { st.currentLine with lastLine := isLast } }

/-- Apply `addWordToLine` to a `BLState` (clearing `wordIndices`). -/
def blAddWord (cfg : BLConfig) (st : BLState) : BLState :=
  let awl := addWordToLine st.result st.currentPos st.wordIndices st.currentLine cfg.ltr
  { st with result := awl.1, currentPos := awl.2.1, currentLine := awl.2.2, wordIndices := [] }

/-- The `if (charResult.breakType != NoBreak || currentLine.lastLine)` block:
either fit the word on the current line or decide to soft-break. -/
def blFitWord (cfg : BLConfig) (startPos : QPointF) (st : BLState)
    (charResult : CharacterResult) : BLState × Bool :=
  if charResult.breakType ≠ BreakType.NoBreak ∨ st.currentLine.lastLine then
    let lineLength := inlineCoord cfg.isHorizontal (st.currentPos - startPos + st.wordAdvance)
    if ¬cfg.inlineSize.isAuto then
      if qRound (|lineLength| - cfg.inlineSize.customValue) > 0 then (st, true)
      else (blAddWord cfg st, false)
    else (blAddWord cfg st, false)
  else (st, false)

/-- Finalize the current line, append it to the line-box list, and clear it
with the given indent — the common body of the soft-break, overflow-wrap and
hard-break branches. -/
def blFinalizeAppendClear (cfg : BLConfig) (sq : ℚ → ℚ) (indent : QPointF)
    (st : BLState) : BLState :=
  let fl := finalizeLine sq st.result st.currentLine st.lineOffset cfg.anchor cfg.writingMode
    cfg.ltr (¬cfg.inlineSize.isAuto) false
  let finalized := fl.2.2.1
  let lineOffset := fl.2.2.2
  let currentLine := finalized.clearAndAdjust cfg.isHorizontal lineOffset indent
  let currentPos :=
    if ¬cfg.inlineSize.isAuto then fl.2.1 + currentLine.textIndent else fl.2.1
  { st with
    result := fl.1
    lineBoxes := st.lineBoxes ++ [finalized]
    currentLine := currentLine
    currentPos := currentPos
    lineOffset := lineOffset }

/-- One iteration of the overflow-wrap `Q_FOREACH (const int i, wordIndices)`
loop: accumulate the partial word, flushing a line whenever it overflows. -/
def blOverflowStep (cfg : BLConfig) (sq : ℚ → ℚ) (textIndent : QPointF)
    (acc : BLState × List ℕ) (i : ℕ) : BLState × List ℕ :=
  let st := acc.1
  let partWord := acc.2
  let wordAdvance := st.wordAdvance + (st.result.getD i default).advance
  let wordLength := inlineCoord cfg.isHorizontal wordAdvance
  if wordLength ≤ cfg.inlineSize.customValue then
    ({ st with wordAdvance := wordAdvance }, partWord ++ [i])
  else
    let awl := addWordToLine st.result st.currentPos partWord st.currentLine cfg.ltr
    let st := { st with result := awl.1, currentPos := awl.2.1, currentLine := awl.2.2 }
    let st := blFinalizeAppendClear cfg sq
      (if cfg.textIndentInfo.hanging then textIndent else 0) st
    ({ st with wordAdvance := (st.result.getD i default).advance }, [i])

/-- The `if (charResult.overflowWrap)` block of the soft-break branch:
re-split an over-long unbreakable word greedily into max-width-fitting
partial chunks. -/
def blOverflowPhase (cfg : BLConfig) (sq : ℚ → ℚ) (textIndent : QPointF)
    (firstLine : Bool) (st : BLState) (charResult : CharacterResult) : BLState :=
  if charResult.overflowWrap then
    let wordLength := inlineCoord cfg.isHorizontal st.wordAdvance
    if ¬cfg.inlineSize.isAuto ∧ wordLength > cfg.inlineSize.customValue then
      let st := { st with
        wordAdvance := 0
        currentLine := { st.currentLine with firstLine := firstLine } }
      let ow := st.wordIndices.foldl (blOverflowStep cfg sq textIndent) (st, [])
      { ow.1 with wordIndices := ow.2 }
    else st
  else st

/-- The `if (softBreak)` block of `breakLines` (finalize the full line, run
the overflow-wrap splitting when enabled, then place the word). -/
def blSoftBreakPhase (cfg : BLConfig) (sq : ℚ → ℚ) (textIndent : QPointF)
    (st : BLState) (softBreak : Bool) (charResult : CharacterResult) : BLState :=
  if ¬softBreak then st
  else
    let firstLine := st.currentLine.firstLine
    let st :=
      if ¬st.currentLine.isEmpty then
        blFinalizeAppendClear cfg sq
          (if cfg.textIndentInfo.hanging then textIndent else 0) st
      else st
    blAddWord cfg (blOverflowPhase cfg sq textIndent firstLine st charResult)

/-- The unconditional body of the `if (charResult.breakType == HardBreak)`
block: finalize the current line, append it, and start a fresh one. -/
def blHardAppend (cfg : BLConfig) (sq : ℚ → ℚ) (textIndent : QPointF) (st : BLState) : BLState :=
  let indentLine : Bool := if cfg.textIndentInfo.hanging then false else cfg.textIndentInfo.eachLine
  blFinalizeAppendClear cfg sq (if indentLine then textIndent else 0) st

/-- The `if (charResult.breakType == HardBreak)` phase of the loop body. -/
def blHardPhase (cfg : BLConfig) (sq : ℚ → ℚ) (textIndent : QPointF) (st : BLState)
    (charResult : CharacterResult) : BLState :=
  if charResult.breakType = BreakType.HardBreak then blHardAppend cfg sq textIndent st else st

/-- The `if (currentLine.lastLine)` phase: flush the remaining word and
finalize the last line. -/
def blLastPhase (cfg : BLConfig) (sq : ℚ → ℚ) (st : BLState) : BLState :=
  if st.currentLine.lastLine then
    let st := if ¬st.wordIndices.isEmpty then blAddWord cfg st else st
    let fl := finalizeLine sq st.result st.currentLine st.lineOffset cfg.anchor cfg.writingMode
      cfg.ltr (¬cfg.inlineSize.isAuto) false
    { st with
      result := fl.1
      currentPos := fl.2.1
      currentLine := fl.2.2.1
      lineOffset := fl.2.2.2
      lineBoxes := st.lineBoxes ++ [fl.2.2.1] }
  else st

/-- One iteration of `breakLines`'s `while (it.hasNext())` loop for the
character at `index`; `isLast` is `!it.hasNext()` after taking `index`. -/
def blStep (cfg : BLConfig) (sq : ℚ → ℚ) (startPos textIndent : QPointF) (isLast : Bool)
    (st : BLState) (index : ℕ) : BLState :=
  let charResult := st.result.getD index default
  if ¬charResult.addressable then st
  else
    let st := blAccum isLast st index charResult
    let fw := blFitWord cfg startPos st charResult
    let st := blSoftBreakPhase cfg sq textIndent fw.1 fw.2 charResult
    let st := blHardPhase cfg sq textIndent st charResult
    blLastPhase cfg sq st

/-- The `while (it.hasNext())` loop over the keys of `logicalToVisual`. -/
def blLoop (cfg : BLConfig) (sq : ℚ → ℚ) (startPos textIndent : QPointF) :
    List ℕ → BLState → BLState
  | [], st => st
  | [k], st => blStep cfg sq startPos textIndent true st k
  | k :: k' :: rest, st =>
    blLoop cfg sq startPos textIndent (k' :: rest) (blStep cfg sq startPos textIndent false st k)

/-- `KoSvgTextShape::Private::breakLines`, the simple line-breaking strategy:
returns the final loop state, whose `lineBoxes` field is the returned
`QVector<LineBox>` and whose `result` field is the mutated character-result
vector. -/
def breakLines (cfg : BLConfig) (sq : ℚ → ℚ) (keys : List ℕ)
    (result : List CharacterResult) (startPos : QPointF) : BLState :=
  blLoop cfg sq startPos (blTextIndent cfg) keys (blInit cfg result startPos)

/-- All character indices stored in the chunks of a line box. -/
def lbIndices (lb : LineBox) : List ℕ := lb.chunks.flatMap LineChunk.chunkIndices

/-- All character indices stored anywhere in a `breakLines` loop state. -/
def stContent (st : BLState) : List ℕ :=
  st.lineBoxes.flatMap lbIndices ++ lbIndices st.currentLine ++ st.wordIndices

/-- Well-formedness of the current line during `breakLines`: a single chunk,
currently selected (this is how `LineBox(start, end)` and `clearAndAdjust`
always leave it). -/
def blWF (lb : LineBox) : Prop := lb.chunks.length = 1 ∧ lb.currentChunk = 0

theorem getD_set_ne {α : Type} (l : List α) (i j : ℕ) (a d : α) (h : i ≠ j) :
    (l.set i a).getD j d = l.getD j d := by
  simp [List.getD_eq_getElem?_getD, List.getElem?_set_ne h]

theorem awtlStep_result_ne (f : ℕ) (fl ltr : Bool) (acc : AwtlAcc) (i j : ℕ) (h : j ≠ i) :
    ((awtlStep f fl ltr acc i).result).getD j default = acc.result.getD j default := by
  unfold awtlStep
  dsimp only
  split
  · split
    · exact getD_set_ne _ _ _ _ _ (fun hc => h hc.symm)
    · exact getD_set_ne _ _ _ _ _ (fun hc => h hc.symm)
  · exact getD_set_ne _ _ _ _ _ (fun hc => h hc.symm)

theorem awtl_fold_result_ne (f : ℕ) (fl ltr : Bool) (l : List ℕ) (acc : AwtlAcc) (j : ℕ)
    (h : j ∉ l) :
    ((l.foldl (awtlStep f fl ltr) acc).result).getD j default = acc.result.getD j default := by
  induction l generalizing acc with
  | nil => rfl
  | cons i rest ih =>
    rw [List.foldl_cons]
    rw [ih _ (fun hm => h (List.mem_cons_of_mem _ hm))]
    exact awtlStep_result_ne f fl ltr acc i j (fun hj => h (hj ▸ List.mem_cons_self i rest))

theorem addWordToLine_result_ne (result : List CharacterResult) (currentPos : QPointF)
    (wordIndices : List ℕ) (currentLine : LineBox) (ltr : Bool) (j : ℕ)
    (h : j ∉ wordIndices) :
    ((addWordToLine result currentPos wordIndices currentLine ltr).1).getD j default =
      result.getD j default := by
  unfold addWordToLine
  exact awtl_fold_result_ne _ _ _ _ _ _ h

theorem setCurrentChunk_of_wf (lb : LineBox) (c₀ c : LineChunk) (h : lb.chunks = [c₀])
    (h2 : lb.currentChunk = 0) :
    lb.setCurrentChunk c = { lb with chunks := [c], currentChunk := 0 } := by
  unfold LineBox.setCurrentChunk
  rw [h, h2]
  norm_num

theorem chunk_of_wf (lb : LineBox) (c₀ : LineChunk) (h : lb.chunks = [c₀])
    (h2 : lb.currentChunk = 0) : lb.chunk = c₀ := by
  unfold LineBox.chunk listValue
  rw [h, h2]
  norm_num

theorem addWordToLine_currentLine (result : List CharacterResult) (currentPos : QPointF)
    (wordIndices : List ℕ) (currentLine : LineBox) (ltr : Bool) (c₀ : LineChunk)
    (h : currentLine.chunks = [c₀]) (h2 : currentLine.currentChunk = 0) :
    ∃ bb top bottom,
      (addWordToLine result currentPos wordIndices currentLine ltr).2.2 =
        { currentLine with
          actualLineTop := top
          actualLineBottom := bottom
          chunks := [{ c₀ with
            boundingBox := bb
            chunkIndices := c₀.chunkIndices ++ wordIndices }]
          currentChunk := 0 } := by
  unfold addWordToLine
  rw [chunk_of_wf currentLine c₀ h h2]
  dsimp only
  rw [setCurrentChunk_of_wf _ c₀ _ (by simp [h]) (by simp [h2])]
  exact ⟨_, _, _, rfl⟩

theorem foldl_result_ne {σ : Type} (get : σ → List CharacterResult) (step : σ → ℕ → σ)
    (l : List ℕ) (s : σ) (j : ℕ)
    (hstep : ∀ s i, i ∈ l → j ≠ i →
      (get (step s i)).getD j default = (get s).getD j default)
    (h : j ∉ l) :
    (get (l.foldl step s)).getD j default = (get s).getD j default := by
  induction l generalizing s with
  | nil => rfl
  | cons i rest ih =>
    rw [List.foldl_cons]
    rw [ih _ (fun s' i' hm => hstep s' i' (List.mem_cons_of_mem _ hm))
      (fun hm => h (List.mem_cons_of_mem _ hm))]
    exact hstep s i (List.mem_cons_self i rest)
      (fun hj => h (hj ▸ List.mem_cons_self i rest))

theorem hcahGo_result_ne (ep : QPointF) (a b c : Bool) (l : List ℕ)
    (result : List CharacterResult) (j : ℕ) (h : j ∉ l) :
    (hcahGo ep a b c l result).getD j default = result.getD j default := by
  induction l generalizing result with
  | nil => rfl
  | cons i rest ih =>
    have hji : j ≠ i := fun hj => h (hj ▸ List.mem_cons_self i rest)
    have hrest : j ∉ rest := fun hm => h (List.mem_cons_of_mem _ hm)
    unfold hcahGo
    dsimp only
    have key : ∀ result' : List CharacterResult,
        (result' = result ∨ ∃ cr, result' = result.set i cr) →
        (if (result.getD i default).lineEnd ≠ LineEdgeBehaviour.Collapse then result'
         else hcahGo ep a b c rest result').getD j default = result.getD j default := by
      intro result' hr
      have hbase : result'.getD j default = result.getD j default := by
        rcases hr with rfl | ⟨cr, rfl⟩
        · rfl
        · exact getD_set_ne _ _ _ _ _ (Ne.symm hji)
      split
      · exact hbase
      · rw [ih _ hrest, hbase]
    refine key _ ?_
    split
    · exact Or.inr ⟨_, rfl⟩
    · split
      · exact Or.inr ⟨_, rfl⟩
      · split
        · exact Or.inr ⟨_, rfl⟩
        · exact Or.inl rfl

theorem handleCollapseAndHang_result_ne (result : List CharacterResult) (chunk : LineChunk)
    (a b c : Bool) (j : ℕ) (h : j ∉ chunk.chunkIndices) :
    (handleCollapseAndHang result chunk a b c).getD j default = result.getD j default := by
  unfold handleCollapseAndHang
  split
  · rfl
  · exact hcahGo_result_ne _ _ _ _ _ _ _ (by rwa [List.mem_reverse])

theorem mem_mapValues_mapInsert (k : ℤ) (v : ℕ) (m : List (ℤ × ℕ)) (j : ℕ)
    (h : j ∈ mapValues (mapInsert k v m)) : j = v ∨ j ∈ mapValues m := by
  induction m with
  | nil =>
    simp [mapInsert, mapValues] at h
    exact Or.inl h
  | cons p rest ih =>
    unfold mapInsert at h
    split at h
    · simp only [mapValues, List.map_cons, List.mem_cons] at h ⊢
      tauto
    · split at h
      · simp only [mapValues, List.map_cons, List.mem_cons] at h ⊢
        tauto
      · simp only [mapValues, List.map_cons, List.mem_cons] at h ⊢
        rcases h with h | h
        · tauto
        · rcases ih h with h' | h'
          · exact Or.inl h'
          · tauto

theorem mem_mapValues_fold (result : List CharacterResult) (l : List ℕ)
    (m₀ : List (ℤ × ℕ)) (j : ℕ)
    (h : j ∈ mapValues (l.foldl
      (fun m i => mapInsert (result.getD i default).visualIndex i m) m₀)) :
    j ∈ l ∨ j ∈ mapValues m₀ := by
  induction l generalizing m₀ with
  | nil => exact Or.inr h
  | cons i rest ih =>
    rw [List.foldl_cons] at h
    rcases ih _ h with h' | h'
    · exact Or.inl (List.mem_cons_of_mem _ h')
    · rcases mem_mapValues_mapInsert _ _ _ _ h' with h'' | h''
      · exact Or.inl (h'' ▸ List.mem_cons_self i rest)
      · exact Or.inr h''

theorem applyInlineSizeAnchoring_result_ne (result : List CharacterResult)
    (chunk : LineChunk) (anchor : TextAnchor) (ap : QPointF) (ltr ih : Bool)
    (ti : QPointF) (j : ℕ) (h : j ∉ chunk.chunkIndices) :
    (applyInlineSizeAnchoring result chunk anchor ap ltr ih ti).getD j default =
      result.getD j default := by
  unfold applyInlineSizeAnchoring
  refine foldl_result_ne id _ chunk.chunkIndices result j ?_ h
  intro s i _ hji
  dsimp only [id]
  split
  · exact getD_set_ne _ _ _ _ _ (Ne.symm hji)
  · split
    · exact getD_set_ne _ _ _ _ _ (Ne.symm hji)
    · split
      · exact getD_set_ne _ _ _ _ _ (Ne.symm hji)
      · rfl

theorem finalizeChunk_result_ne (sq : ℚ → ℚ) (anchor : TextAnchor) (ltr ih ils tis ll jl : Bool)
    (ti lo : QPointF) (st : List CharacterResult × QPointF) (chunk : LineChunk) (j : ℕ)
    (h : j ∉ chunk.chunkIndices) :
    ((finalizeChunk sq anchor ltr ih ils tis ll jl ti lo st chunk).1).getD j default =
      st.1.getD j default := by
  unfold finalizeChunk
  dsimp only
  have hvals : j ∉ mapValues (chunk.chunkIndices.foldl
      (fun m i => mapInsert (st.1.getD i default).visualIndex i m) []) := by
    intro hm
    rcases mem_mapValues_fold st.1 _ _ _ hm with h' | h'
    · exact h h'
    · simp [mapValues] at h'
  have hpos : ∀ (r₀ : List CharacterResult) (p₀ jo : QPointF),
      ((mapValues (chunk.chunkIndices.foldl
          (fun m i => mapInsert (st.1.getD i default).visualIndex i m) [])).foldl
        (fun (rp : List CharacterResult × QPointF) i =>
          let result := rp.1
          let currentPos := rp.2
          let cr := result.getD i default
          if ¬cr.addressable ∨ cr.isHanging then rp
          else
            let currentPos := if cr.justifyBefore then currentPos + jo else currentPos
            let result := result.set i
              { cr with cssPosition := currentPos, finalPosition := currentPos }
            let currentPos := currentPos + cr.advance
            (result, if cr.justifyAfter then currentPos + jo else currentPos))
        (r₀, p₀)).1.getD j default = r₀.getD j default := by
    intro r₀ p₀ jo
    refine foldl_result_ne Prod.fst _ _ (r₀, p₀) j ?_ hvals
    intro s i _ hji
    dsimp only
    split
    · rfl
    · exact getD_set_ne _ _ _ _ _ (Ne.symm hji)
  by_cases hi : ils = true
  · rw [if_pos hi]
    rw [applyInlineSizeAnchoring_result_ne _ _ _ _ _ _ _ _ h]
    rw [hpos]
    exact handleCollapseAndHang_result_ne _ _ _ _ _ _ h
  · rw [if_neg hi]
    rw [hpos]
    exact handleCollapseAndHang_result_ne _ _ _ _ _ _ h

theorem lhoMetricFix_chunks (result : List CharacterResult) (cl : LineBox) :
    (lhoMetricFix result cl).chunks = cl.chunks := by
  unfold lhoMetricFix
  split
  · dsimp only
    cases (cl.chunks.getD 0 default).chunkIndices.head? <;> rfl
  · rfl

theorem lhoBaselines_chunks (wm : WritingMode) (lt lb : QPointF) (cl : LineBox) :
    (lhoBaselines wm lt lb cl).chunks = cl.chunks := by
  unfold lhoBaselines
  split <;> rfl

theorem lineHeightOffset_result_ne (wm : WritingMode) (result : List CharacterResult)
    (cl : LineBox) (fl : Bool) (j : ℕ) (h : j ∉ lbIndices cl) :
    ((lineHeightOffset wm result cl fl).2.1).getD j default = result.getD j default := by
  have hfold : ∀ (g : List CharacterResult → ℕ → CharacterResult) (idx : List ℕ)
      (r : List CharacterResult), j ∉ idx →
      (idx.foldl (fun r i => r.set i (g r i)) r).getD j default = r.getD j default := by
    intro g idx
    induction idx with
    | nil => intro r _; rfl
    | cons i rest ih =>
      intro r hj
      rw [List.foldl_cons, ih _ (fun hm => hj (List.mem_cons_of_mem _ hm))]
      exact getD_set_ne _ _ _ _ _
        (fun hc => hj (hc ▸ List.mem_cons_self i rest))
  have hflat : j ∉ cl.chunks.flatMap LineChunk.chunkIndices := h
  unfold lineHeightOffset
  dsimp only
  split
  · rfl
  · rw [lhoBaselines_chunks, lhoMetricFix_chunks]
    split
    · exact hfold _ _ _ hflat
    · exact hfold _ _ _ hflat

theorem finalizeLine_result_ne (sq : ℚ → ℚ) (result : List CharacterResult) (cl : LineBox)
    (lo : QPointF) (anchor : TextAnchor) (wm : WritingMode) (ltr ils tis : Bool) (j : ℕ)
    (h : j ∉ lbIndices cl) :
    ((finalizeLine sq result cl lo anchor wm ltr ils tis).1).getD j default =
      result.getD j default := by
  unfold finalizeLine
  dsimp only
  rw [lineHeightOffset_result_ne _ _ _ _ _ h]
  have : ∀ (cs : List LineChunk) (st : List CharacterResult × QPointF),
      j ∉ cs.flatMap LineChunk.chunkIndices →
      ((cs.foldl (finalizeChunk sq anchor ltr (wm = WritingMode.HorizontalTB) ils tis
        cl.lastLine cl.justifyLine cl.textIndent lo) st).1).getD j default =
        st.1.getD j default := by
    intro cs
    induction cs with
    | nil => intro st _; rfl
    | cons c rest ih =>
      intro st hj
      rw [List.foldl_cons]
      rw [ih _ (fun hm => hj (by
        simp only [List.flatMap_cons, List.mem_append]
        exact Or.inr hm))]
      refine finalizeChunk_result_ne _ _ _ _ _ _ _ _ _ _ _ _ _ ?_
      intro hm
      apply hj
      simp only [List.flatMap_cons, List.mem_append]
      exact Or.inl hm
  exact this cl.chunks (result, lo) h

theorem lhoMetricFix_spec (r : List CharacterResult) (cl : LineBox) :
    ∃ alt alb, lhoMetricFix r cl = { cl with actualLineTop := alt, actualLineBottom := alb } := by
  unfold lhoMetricFix
  split
  · dsimp only
    cases (cl.chunks.getD 0 default).chunkIndices.head?
    · exact ⟨_, _, rfl⟩
    · exact ⟨_, _, rfl⟩
  · exact ⟨_, _, rfl⟩

theorem lhoBoth_spec (wm : WritingMode) (lt lb : QPointF) (r : List CharacterResult)
    (cl : LineBox) :
    ∃ alt alb bt bb, lhoBaselines wm lt lb (lhoMetricFix r cl) =
      { cl with
        actualLineTop := alt
        actualLineBottom := alb
        baselineTop := bt
        baselineBottom := bb } := by
  rcases lhoMetricFix_spec r cl with ⟨alt, alb, h1⟩
  rw [h1]
  cases wm
  · exact ⟨_, _, _, _, rfl⟩
  · exact ⟨_, _, _, _, rfl⟩
  · exact ⟨_, _, _, _, rfl⟩

theorem lineHeightOffset_line_spec (wm : WritingMode) (r : List CharacterResult)
    (cl : LineBox) (fl : Bool) :
    ∃ alt alb bt bb, (lineHeightOffset wm r cl fl).2.2 =
      { cl with
        actualLineTop := alt
        actualLineBottom := alb
        baselineTop := bt
        baselineBottom := bb } := by
  unfold lineHeightOffset
  dsimp only
  split
  · exact ⟨cl.actualLineTop, cl.actualLineBottom, cl.baselineTop, cl.baselineBottom, rfl⟩
  · split
    · exact lhoBoth_spec _ _ _ _ _
    · exact lhoBoth_spec _ _ _ _ _

theorem finalizeLine_line_spec (sq : ℚ → ℚ) (r : List CharacterResult) (cl : LineBox)
    (lo : QPointF) (anchor : TextAnchor) (wm : WritingMode) (ltr ils tis : Bool) :
    ∃ alt alb bt bb, (finalizeLine sq r cl lo anchor wm ltr ils tis).2.2.1 =
      { cl with
        actualLineTop := alt
        actualLineBottom := alb
        baselineTop := bt
        baselineBottom := bb } := by
  unfold finalizeLine
  dsimp only
  exact lineHeightOffset_line_spec _ _ _ _

theorem clearAndAdjust_spec (lb : LineBox) (ih : Bool) (cur ind : QPointF) :
    ∃ L, lb.clearAndAdjust ih cur ind =
      { lb with
        actualLineBottom := 0
        actualLineTop := 0
        textIndent := ind
        chunks := [{ length := L }]
        currentChunk := 0
        firstLine := false } := by
  unfold LineBox.clearAndAdjust
  dsimp only
  split
  · exact ⟨_, rfl⟩
  · exact ⟨_, rfl⟩

theorem lbIndices_singleton (c : LineChunk) (lb : LineBox) (h : lb.chunks = [c]) :
    lbIndices lb = c.chunkIndices := by
  simp [lbIndices, h]

/-- All indices stored in the finished line boxes of a state. -/
def flattenBoxes (st : BLState) : List ℕ := st.lineBoxes.flatMap lbIndices

/-- The facts preserved by each phase of the `breakLines` loop body: the
stored index content is redistributed but unchanged, characters outside the
stored content are untouched, the current line stays well-formed, its
`lastLine` flag survives, and the finished-box list only grows. -/
structure PhaseFacts (st st' : BLState) : Prop where
  content : stContent st' = stContent st
  confine : ∀ j, j ∉ stContent st → st'.result.getD j default = st.result.getD j default
  wf : blWF st'.currentLine
  last : st'.currentLine.lastLine = st.currentLine.lastLine
  boxes : ∃ bs, st'.lineBoxes = st.lineBoxes ++ bs

theorem PhaseFacts.ofEq (st : BLState) (hwf : blWF st.currentLine) : PhaseFacts st st :=
  ⟨rfl, fun _ _ => rfl, hwf, rfl, ⟨[], (List.append_nil _).symm⟩⟩

theorem PhaseFacts.compose {s1 s2 s3 : BLState} (h1 : PhaseFacts s1 s2)
    (h2 : PhaseFacts s2 s3) : PhaseFacts s1 s3 := by
  refine ⟨h2.content.trans h1.content, ?_, h2.wf, h2.last.trans h1.last, ?_⟩
  · intro j hj
    exact (h2.confine j (h1.content ▸ hj)).trans (h1.confine j hj)
  · obtain ⟨b1, e1⟩ := h1.boxes
    obtain ⟨b2, e2⟩ := h2.boxes
    exact ⟨b1 ++ b2, by rw [e2, e1, List.append_assoc]⟩

theorem blAddWord_facts (cfg : BLConfig) (st : BLState) (hwf : blWF st.currentLine) :
    PhaseFacts st (blAddWord cfg st) := by
  obtain ⟨c₀, hc⟩ := List.length_eq_one.mp hwf.1
  obtain ⟨bb, tp, bt, hl⟩ := addWordToLine_currentLine st.result st.currentPos st.wordIndices
    st.currentLine cfg.ltr c₀ hc hwf.2
  have hcl : (blAddWord cfg st).currentLine =
      (addWordToLine st.result st.currentPos st.wordIndices st.currentLine cfg.ltr).2.2 := rfl
  refine ⟨?_, ?_, ?_, ?_, ⟨[], (List.append_nil _).symm⟩⟩
  · have hrepr : stContent (blAddWord cfg st) = st.lineBoxes.flatMap lbIndices ++
        lbIndices ((addWordToLine st.result st.currentPos st.wordIndices st.currentLine
          cfg.ltr).2.2) ++ [] := rfl
    rw [hrepr, hl]
    simp [stContent, lbIndices, hc]
  · intro j hj
    have hwi : j ∉ st.wordIndices := by
      intro hm
      exact hj (by simp [stContent]; tauto)
    exact addWordToLine_result_ne _ _ _ _ _ _ hwi
  · rw [hcl, hl]
    exact ⟨rfl, rfl⟩
  · rw [hcl, hl]

theorem blFinalizeAppendClear_facts (cfg : BLConfig) (sq : ℚ → ℚ) (ind : QPointF)
    (st : BLState) : PhaseFacts st (blFinalizeAppendClear cfg sq ind st) := by
  obtain ⟨alt, alb, btp, bbt, hfin⟩ := finalizeLine_line_spec sq st.result st.currentLine
    st.lineOffset cfg.anchor cfg.writingMode cfg.ltr (¬cfg.inlineSize.isAuto) false
  obtain ⟨L, hclear⟩ := clearAndAdjust_spec ((finalizeLine sq st.result st.currentLine
    st.lineOffset cfg.anchor cfg.writingMode cfg.ltr (¬cfg.inlineSize.isAuto) false).2.2.1)
    cfg.isHorizontal
    ((finalizeLine sq st.result st.currentLine st.lineOffset cfg.anchor cfg.writingMode
      cfg.ltr (¬cfg.inlineSize.isAuto) false).2.2.2) ind
  refine ⟨?_, ?_, ?_, ?_, ?_⟩
  · have hrepr : stContent (blFinalizeAppendClear cfg sq ind st) =
        (st.lineBoxes ++ [(finalizeLine sq st.result st.currentLine st.lineOffset cfg.anchor
          cfg.writingMode cfg.ltr (¬cfg.inlineSize.isAuto) false).2.2.1]).flatMap lbIndices ++
        lbIndices (((finalizeLine sq st.result st.currentLine st.lineOffset cfg.anchor
          cfg.writingMode cfg.ltr (¬cfg.inlineSize.isAuto) false).2.2.1).clearAndAdjust
          cfg.isHorizontal ((finalizeLine sq st.result st.currentLine st.lineOffset cfg.anchor
          cfg.writingMode cfg.ltr (¬cfg.inlineSize.isAuto) false).2.2.2) ind) ++
        st.wordIndices := rfl
    rw [hrepr, hclear, hfin]
    simp [stContent, lbIndices]
  · intro j hj
    have hne : j ∉ lbIndices st.currentLine := by
      intro hm
      exact hj (by simp [stContent]; tauto)
    exact finalizeLine_result_ne _ _ _ _ _ _ _ _ _ _ hne
  · have hcl : (blFinalizeAppendClear cfg sq ind st).currentLine =
        ((finalizeLine sq st.result st.currentLine st.lineOffset cfg.anchor cfg.writingMode
          cfg.ltr (¬cfg.inlineSize.isAuto) false).2.2.1).clearAndAdjust cfg.isHorizontal
        ((finalizeLine sq st.result st.currentLine st.lineOffset cfg.anchor cfg.writingMode
          cfg.ltr (¬cfg.inlineSize.isAuto) false).2.2.2) ind := rfl
    rw [hcl, hclear]
    exact ⟨rfl, rfl⟩
  · have hcl : (blFinalizeAppendClear cfg sq ind st).currentLine =
        ((finalizeLine sq st.result st.currentLine st.lineOffset cfg.anchor cfg.writingMode
          cfg.ltr (¬cfg.inlineSize.isAuto) false).2.2.1).clearAndAdjust cfg.isHorizontal
        ((finalizeLine sq st.result st.currentLine st.lineOffset cfg.anchor cfg.writingMode
          cfg.ltr (¬cfg.inlineSize.isAuto) false).2.2.2) ind := rfl
    rw [hcl, hclear, hfin]
  · exact ⟨[(finalizeLine sq st.result st.currentLine st.lineOffset cfg.anchor cfg.writingMode
      cfg.ltr (¬cfg.inlineSize.isAuto) false).2.2.1], rfl⟩

theorem blFitWord_facts (cfg : BLConfig) (sp : QPointF) (st : BLState)
    (cr : CharacterResult) (hwf : blWF st.currentLine) :
    PhaseFacts st (blFitWord cfg sp st cr).1 := by
  unfold blFitWord
  dsimp only
  split
  · split
    · split
      · exact PhaseFacts.ofEq st hwf
      · exact blAddWord_facts cfg st hwf
    · exact blAddWord_facts cfg st hwf
  · exact PhaseFacts.ofEq st hwf

theorem blFinalizeAppendClear_contentOW (cfg : BLConfig) (sq : ℚ → ℚ) (ind : QPointF)
    (st : BLState) :
    flattenBoxes (blFinalizeAppendClear cfg sq ind st) ++
      lbIndices (blFinalizeAppendClear cfg sq ind st).currentLine =
    flattenBoxes st ++ lbIndices st.currentLine := by
  obtain ⟨alt, alb, btp, bbt, hfin⟩ := finalizeLine_line_spec sq st.result st.currentLine
    st.lineOffset cfg.anchor cfg.writingMode cfg.ltr (¬cfg.inlineSize.isAuto) false
  obtain ⟨L, hclear⟩ := clearAndAdjust_spec ((finalizeLine sq st.result st.currentLine
    st.lineOffset cfg.anchor cfg.writingMode cfg.ltr (¬cfg.inlineSize.isAuto) false).2.2.1)
    cfg.isHorizontal
    ((finalizeLine sq st.result st.currentLine st.lineOffset cfg.anchor cfg.writingMode
      cfg.ltr (¬cfg.inlineSize.isAuto) false).2.2.2) ind
  have hrepr : flattenBoxes (blFinalizeAppendClear cfg sq ind st) ++
      lbIndices (blFinalizeAppendClear cfg sq ind st).currentLine =
      (st.lineBoxes ++ [(finalizeLine sq st.result st.currentLine st.lineOffset cfg.anchor
        cfg.writingMode cfg.ltr (¬cfg.inlineSize.isAuto) false).2.2.1]).flatMap lbIndices ++
      lbIndices (((finalizeLine sq st.result st.currentLine st.lineOffset cfg.anchor
        cfg.writingMode cfg.ltr (¬cfg.inlineSize.isAuto) false).2.2.1).clearAndAdjust
        cfg.isHorizontal ((finalizeLine sq st.result st.currentLine st.lineOffset cfg.anchor
        cfg.writingMode cfg.ltr (¬cfg.inlineSize.isAuto) false).2.2.2) ind) := rfl
  rw [hrepr, hclear, hfin]
  simp [flattenBoxes, lbIndices]

theorem blFinalizeAppendClear_wordIndices (cfg : BLConfig) (sq : ℚ → ℚ) (ind : QPointF)
    (st : BLState) :
    (blFinalizeAppendClear cfg sq ind st).wordIndices = st.wordIndices := rfl

theorem blFinalizeAppendClear_lb_nil (cfg : BLConfig) (sq : ℚ → ℚ) (ind : QPointF)
    (st : BLState) :
    lbIndices (blFinalizeAppendClear cfg sq ind st).currentLine = [] := by
  obtain ⟨L, hclear⟩ := clearAndAdjust_spec ((finalizeLine sq st.result st.currentLine
    st.lineOffset cfg.anchor cfg.writingMode cfg.ltr (¬cfg.inlineSize.isAuto) false).2.2.1)
    cfg.isHorizontal
    ((finalizeLine sq st.result st.currentLine st.lineOffset cfg.anchor cfg.writingMode
      cfg.ltr (¬cfg.inlineSize.isAuto) false).2.2.2) ind
  have hcl : (blFinalizeAppendClear cfg sq ind st).currentLine =
      ((finalizeLine sq st.result st.currentLine st.lineOffset cfg.anchor cfg.writingMode
        cfg.ltr (¬cfg.inlineSize.isAuto) false).2.2.1).clearAndAdjust cfg.isHorizontal
      ((finalizeLine sq st.result st.currentLine st.lineOffset cfg.anchor cfg.writingMode
        cfg.ltr (¬cfg.inlineSize.isAuto) false).2.2.2) ind := rfl
  rw [hcl, hclear]
  simp [lbIndices]

/-- The facts established by one iteration of the overflow-wrap loop. -/
theorem blOverflowStep_facts (cfg : BLConfig) (sq : ℚ → ℚ) (ti : QPointF)
    (acc : BLState × List ℕ) (i : ℕ) (hwf : blWF acc.1.currentLine) :
    flattenBoxes (blOverflowStep cfg sq ti acc i).1 ++
        lbIndices (blOverflowStep cfg sq ti acc i).1.currentLine ++
        (blOverflowStep cfg sq ti acc i).2 =
      flattenBoxes acc.1 ++ lbIndices acc.1.currentLine ++ acc.2 ++ [i] ∧
    (∀ j, j ∉ lbIndices acc.1.currentLine → j ∉ acc.2 →
      (blOverflowStep cfg sq ti acc i).1.result.getD j default =
        acc.1.result.getD j default) ∧
    blWF (blOverflowStep cfg sq ti acc i).1.currentLine ∧
    (blOverflowStep cfg sq ti acc i).1.currentLine.lastLine =
      acc.1.currentLine.lastLine ∧
    (∃ bs, (blOverflowStep cfg sq ti acc i).1.lineBoxes = acc.1.lineBoxes ++ bs) ∧
    (blOverflowStep cfg sq ti acc i).1.wordIndices = acc.1.wordIndices ∧
    (∀ j, j ∈ lbIndices (blOverflowStep cfg sq ti acc i).1.currentLine →
      j ∈ lbIndices acc.1.currentLine ∨ j ∈ acc.2) := by
  obtain ⟨c₀, hc⟩ := List.length_eq_one.mp hwf.1
  obtain ⟨bb, tp, bt, hl⟩ := addWordToLine_currentLine acc.1.result acc.1.currentPos acc.2
    acc.1.currentLine cfg.ltr c₀ hc hwf.2
  unfold blOverflowStep
  dsimp only
  split
  · exact ⟨by simp [flattenBoxes], fun j _ _ => rfl, hwf, rfl, ⟨[], by simp⟩, rfl,
      fun j hj => Or.inl hj⟩
  · set st1 : BLState := { acc.1 with
      result := (addWordToLine acc.1.result acc.1.currentPos acc.2 acc.1.currentLine cfg.ltr).1
      currentPos :=
        (addWordToLine acc.1.result acc.1.currentPos acc.2 acc.1.currentLine cfg.ltr).2.1
      currentLine := (addWordToLine acc.1.result acc.1.currentPos acc.2 acc.1.currentLine
        cfg.ltr).2.2 } with hst1
    have hfacts := blFinalizeAppendClear_facts cfg sq
      (if cfg.textIndentInfo.hanging = true then ti else 0) st1
    have hcow := blFinalizeAppendClear_contentOW cfg sq
      (if cfg.textIndentInfo.hanging = true then ti else 0) st1
    have hnil := blFinalizeAppendClear_lb_nil cfg sq
      (if cfg.textIndentInfo.hanging = true then ti else 0) st1
    have hflat1 : flattenBoxes st1 = flattenBoxes acc.1 := rfl
    have hlb1 : lbIndices st1.currentLine = lbIndices acc.1.currentLine ++ acc.2 := by
      rw [hst1]
      dsimp only
      rw [hl]
      simp [lbIndices, hc]
    refine ⟨?_, ?_, hfacts.wf, ?_, ?_, ?_, ?_⟩
    · simp only [flattenBoxes] at hcow ⊢
      rw [hcow, hlb1, show st1.lineBoxes = acc.1.lineBoxes from rfl]
      simp
    · intro j hjl hjp
      dsimp only
      have hni : j ∉ lbIndices st1.currentLine := by
        rw [hlb1]
        simp only [List.mem_append]
        tauto
      have h2 : (blFinalizeAppendClear cfg sq
          (if cfg.textIndentInfo.hanging = true then ti else 0) st1).result.getD j default =
          st1.result.getD j default :=
        finalizeLine_result_ne _ _ _ _ _ _ _ _ _ _ hni
      rw [h2, hst1]
      dsimp only
      exact addWordToLine_result_ne _ _ _ _ _ _ hjp
    · dsimp only
      rw [hfacts.last, hst1]
      dsimp only
      rw [hl]
    · obtain ⟨bs, hbs⟩ := hfacts.boxes
      exact ⟨bs, by dsimp only; rw [hbs]⟩
    · dsimp only
      rw [blFinalizeAppendClear_wordIndices]
    · intro j hj
      dsimp only at hj
      rw [hnil] at hj
      exact absurd hj (List.not_mem_nil j)

/-- Facts for the overflow-wrap fold of `blSoftBreakPhase`: the index content
(with the partial word substituted for the consumed word buffer) accumulates
exactly the fold's input list, and all other phase facts hold. -/
theorem blOverflowFold_facts (cfg : BLConfig) (sq : ℚ → ℚ) (ti : QPointF) (l : List ℕ) :
    ∀ (acc : BLState × List ℕ), blWF acc.1.currentLine →
    flattenBoxes (l.foldl (blOverflowStep cfg sq ti) acc).1 ++
        lbIndices (l.foldl (blOverflowStep cfg sq ti) acc).1.currentLine ++
        (l.foldl (blOverflowStep cfg sq ti) acc).2 =
      flattenBoxes acc.1 ++ lbIndices acc.1.currentLine ++ acc.2 ++ l ∧
    (∀ j, j ∉ lbIndices acc.1.currentLine → j ∉ acc.2 → j ∉ l →
      (l.foldl (blOverflowStep cfg sq ti) acc).1.result.getD j default =
        acc.1.result.getD j default) ∧
    blWF (l.foldl (blOverflowStep cfg sq ti) acc).1.currentLine ∧
    (l.foldl (blOverflowStep cfg sq ti) acc).1.currentLine.lastLine =
      acc.1.currentLine.lastLine ∧
    (∃ bs, (l.foldl (blOverflowStep cfg sq ti) acc).1.lineBoxes = acc.1.lineBoxes ++ bs) ∧
    (l.foldl (blOverflowStep cfg sq ti) acc).1.wordIndices = acc.1.wordIndices := by
  induction l with
  | nil =>
    intro acc hwf
    exact ⟨by simp, fun j _ _ _ => rfl, hwf, rfl, ⟨[], by simp⟩, rfl⟩
  | cons i rest ih =>
    intro acc hwf
    rw [List.foldl_cons]
    obtain ⟨s1, s2, s3, s4, s5, s6, s7⟩ := blOverflowStep_facts cfg sq ti acc i hwf
    obtain ⟨r1, r2, r3, r4, r5, r6⟩ := ih (blOverflowStep cfg sq ti acc i) s3
    refine ⟨?_, ?_, r3, r4.trans s4, ?_, r6.trans s6⟩
    · rw [r1, s1]
      simp [List.append_assoc]
    · intro j hjl hjp hjr
      have hji : j ≠ i := fun hj => hjr (hj ▸ List.mem_cons_self i rest)
      have hjrest : j ∉ rest := fun hm => hjr (List.mem_cons_of_mem _ hm)
      have hnot1 : j ∉ lbIndices (blOverflowStep cfg sq ti acc i).1.currentLine := by
        intro hm
        rcases s7 j hm with h' | h'
        · exact hjl h'
        · exact hjp h'
      have hnot2 : j ∉ (blOverflowStep cfg sq ti acc i).2 := by
        intro hm
        -- the new partial word is either `acc.2 ++ [i]` or `[i]`
        have := s1
        -- membership argument via s1 is indirect; use the definition directly
        revert hm
        unfold blOverflowStep
        dsimp only
        split
        · intro hm
          rcases List.mem_append.mp hm with h' | h'
          · exact hjp h'
          · exact hji (List.mem_singleton.mp h')
        · intro hm
          exact hji (List.mem_singleton.mp hm)
      exact (r2 j hnot1 hnot2 hjrest).trans (s2 j hjl hjp)
    · obtain ⟨b1, e1⟩ := s5
      obtain ⟨b2, e2⟩ := r5
      exact ⟨b1 ++ b2, by rw [e2, e1, List.append_assoc]⟩

theorem blOverflowPhase_facts (cfg : BLConfig) (sq : ℚ → ℚ) (ti : QPointF) (fl : Bool)
    (st : BLState) (cr : CharacterResult) (hwf : blWF st.currentLine) :
    PhaseFacts st (blOverflowPhase cfg sq ti fl st cr) := by
  unfold blOverflowPhase
  dsimp only
  split
  · split
    · set stA : BLState := { st with
        wordAdvance := 0
        currentLine := { st.currentLine with firstLine := fl } } with hstA
      have hwfA : blWF stA.currentLine := hwf
      obtain ⟨f1, f2, f3, f4, f5, f6⟩ :=
        blOverflowFold_facts cfg sq ti stA.wordIndices (stA, []) hwfA
      refine ⟨?_, ?_, f3, ?_, ?_⟩
      · simp only [stContent, flattenBoxes] at f1 ⊢
        rw [f1]
        simp [lbIndices]
      · intro j hj
        simp only [stContent, List.mem_append] at hj
        push_neg at hj
        have := f2 j (fun hm => hj.1.2 hm) (List.not_mem_nil j) (fun hm => hj.2 hm)
        exact this
      · exact f4
      · obtain ⟨bs, hbs⟩ := f5
        exact ⟨bs, hbs⟩
    · exact PhaseFacts.ofEq st hwf
  · exact PhaseFacts.ofEq st hwf

theorem blSoftBreakPhase_facts (cfg : BLConfig) (sq : ℚ → ℚ) (ti : QPointF) (st : BLState)
    (sb : Bool) (cr : CharacterResult) (hwf : blWF st.currentLine) :
    PhaseFacts st (blSoftBreakPhase cfg sq ti st sb cr) := by
  unfold blSoftBreakPhase
  dsimp only
  split
  · exact PhaseFacts.ofEq st hwf
  · set st1 : BLState := (if ¬st.currentLine.isEmpty = true then
        blFinalizeAppendClear cfg sq
          (if cfg.textIndentInfo.hanging = true then ti else 0) st
      else st) with hst1
    have hf1 : PhaseFacts st st1 := by
      rw [hst1]
      split
      · exact blFinalizeAppendClear_facts cfg sq _ st
      · exact PhaseFacts.ofEq st hwf
    have hf2 : PhaseFacts st1 (blOverflowPhase cfg sq ti st.currentLine.firstLine st1 cr) :=
      blOverflowPhase_facts cfg sq ti st.currentLine.firstLine st1 cr hf1.wf
    have hf3 := blAddWord_facts cfg (blOverflowPhase cfg sq ti st.currentLine.firstLine st1 cr)
      hf2.wf
    exact (hf1.compose hf2).compose hf3

theorem blHardPhase_facts (cfg : BLConfig) (sq : ℚ → ℚ) (ti : QPointF) (st : BLState)
    (cr : CharacterResult) (hwf : blWF st.currentLine) :
    PhaseFacts st (blHardPhase cfg sq ti st cr) := by
  unfold blHardPhase
  split
  · exact blFinalizeAppendClear_facts cfg sq _ st
  · exact PhaseFacts.ofEq st hwf

theorem blAccum_facts (isLast : Bool) (st : BLState) (k : ℕ) (cr : CharacterResult) :
    stContent (blAccum isLast st k cr) = stContent st ++ [k] ∧
    (blAccum isLast st k cr).result = st.result ∧
    (blWF st.currentLine → blWF (blAccum isLast st k cr).currentLine) ∧
    (blAccum isLast st k cr).currentLine.lastLine = isLast ∧
    (blAccum isLast st k cr).lineBoxes = st.lineBoxes := by
  refine ⟨?_, rfl, fun h => h, rfl, rfl⟩
  simp [blAccum, stContent, lbIndices, flattenBoxes, List.append_assoc]

theorem blStep_skip (cfg : BLConfig) (sq : ℚ → ℚ) (sp ti : QPointF) (isLast : Bool)
    (st : BLState) (k : ℕ) (haddr : (st.result.getD k default).addressable = false) :
    blStep cfg sq sp ti isLast st k = st := by
  unfold blStep
  dsimp only
  rw [if_pos]
  intro h
  rw [haddr] at h
  exact Bool.false_ne_true h

theorem blStep_notLast_facts (cfg : BLConfig) (sq : ℚ → ℚ) (sp ti : QPointF)
    (st : BLState) (k : ℕ) (hwf : blWF st.currentLine)
    (haddr : (st.result.getD k default).addressable = true) :
    stContent (blStep cfg sq sp ti false st k) = stContent st ++ [k] ∧
    (∀ j, j ∉ stContent st → j ≠ k →
      (blStep cfg sq sp ti false st k).result.getD j default = st.result.getD j default) ∧
    blWF (blStep cfg sq sp ti false st k).currentLine ∧
    (blStep cfg sq sp ti false st k).currentLine.lastLine = false ∧
    (∃ bs, (blStep cfg sq sp ti false st k).lineBoxes = st.lineBoxes ++ bs) := by
  obtain ⟨a1, a2, a3, a4, a5⟩ := blAccum_facts false st k (st.result.getD k default)
  have hwf0 : blWF (blAccum false st k (st.result.getD k default)).currentLine := a3 hwf
  have F1 := blFitWord_facts cfg sp (blAccum false st k (st.result.getD k default))
    (st.result.getD k default) hwf0
  have F2 := blSoftBreakPhase_facts cfg sq ti
    (blFitWord cfg sp (blAccum false st k (st.result.getD k default))
      (st.result.getD k default)).1
    (blFitWord cfg sp (blAccum false st k (st.result.getD k default))
      (st.result.getD k default)).2
    (st.result.getD k default) F1.wf
  have F3 := blHardPhase_facts cfg sq ti
    (blSoftBreakPhase cfg sq ti
      (blFitWord cfg sp (blAccum false st k (st.result.getD k default))
        (st.result.getD k default)).1
      (blFitWord cfg sp (blAccum false st k (st.result.getD k default))
        (st.result.getD k default)).2
      (st.result.getD k default))
    (st.result.getD k default) F2.wf
  have C := (F1.compose F2).compose F3
  have hlast2 : (blHardPhase cfg sq ti
      (blSoftBreakPhase cfg sq ti
        (blFitWord cfg sp (blAccum false st k (st.result.getD k default))
          (st.result.getD k default)).1
        (blFitWord cfg sp (blAccum false st k (st.result.getD k default))
          (st.result.getD k default)).2
        (st.result.getD k default))
      (st.result.getD k default)).currentLine.lastLine = false := C.last.trans a4
  have hstep : blStep cfg sq sp ti false st k = blHardPhase cfg sq ti
      (blSoftBreakPhase cfg sq ti
        (blFitWord cfg sp (blAccum false st k (st.result.getD k default))
          (st.result.getD k default)).1
        (blFitWord cfg sp (blAccum false st k (st.result.getD k default))
          (st.result.getD k default)).2
        (st.result.getD k default))
      (st.result.getD k default) := by
    unfold blStep
    dsimp only
    rw [if_neg (not_not_intro haddr)]
    unfold blLastPhase
    rw [if_neg]
    rw [hlast2]
    exact Bool.false_ne_true
  rw [hstep]
  refine ⟨C.content.trans a1, ?_, C.wf, hlast2, ?_⟩
  · intro j hj hjk
    have hj0 : j ∉ stContent (blAccum false st k (st.result.getD k default)) := by
      rw [a1]
      simp only [List.mem_append, List.mem_singleton]
      tauto
    rw [C.confine j hj0]
    rw [a2]
  · obtain ⟨bs, hbs⟩ := C.boxes
    exact ⟨bs, by rw [hbs, a5]⟩

theorem blStep_last_flatten (cfg : BLConfig) (sq : ℚ → ℚ) (sp ti : QPointF)
    (st : BLState) (k : ℕ) (hwf : blWF st.currentLine)
    (haddr : (st.result.getD k default).addressable = true) :
    flattenBoxes (blStep cfg sq sp ti true st k) = stContent st ++ [k] := by
  obtain ⟨a1, a2, a3, a4, a5⟩ := blAccum_facts true st k (st.result.getD k default)
  have hwf0 : blWF (blAccum true st k (st.result.getD k default)).currentLine := a3 hwf
  have F1 := blFitWord_facts cfg sp (blAccum true st k (st.result.getD k default))
    (st.result.getD k default) hwf0
  have F2 := blSoftBreakPhase_facts cfg sq ti
    (blFitWord cfg sp (blAccum true st k (st.result.getD k default))
      (st.result.getD k default)).1
    (blFitWord cfg sp (blAccum true st k (st.result.getD k default))
      (st.result.getD k default)).2
    (st.result.getD k default) F1.wf
  have F3 := blHardPhase_facts cfg sq ti
    (blSoftBreakPhase cfg sq ti
      (blFitWord cfg sp (blAccum true st k (st.result.getD k default))
        (st.result.getD k default)).1
      (blFitWord cfg sp (blAccum true st k (st.result.getD k default))
        (st.result.getD k default)).2
      (st.result.getD k default))
    (st.result.getD k default) F2.wf
  have C := (F1.compose F2).compose F3
  set st2 : BLState := blHardPhase cfg sq ti
      (blSoftBreakPhase cfg sq ti
        (blFitWord cfg sp (blAccum true st k (st.result.getD k default))
          (st.result.getD k default)).1
        (blFitWord cfg sp (blAccum true st k (st.result.getD k default))
          (st.result.getD k default)).2
        (st.result.getD k default))
      (st.result.getD k default) with hst2
  have hlast2 : st2.currentLine.lastLine = true := C.last.trans a4
  have hcontent2 : stContent st2 = stContent st ++ [k] := C.content.trans a1
  have hstep : blStep cfg sq sp ti true st k = blLastPhase cfg sq st2 := by
    unfold blStep
    dsimp only
    rw [if_neg (not_not_intro haddr)]
  rw [hstep]
  -- evaluate the last phase
  unfold blLastPhase
  rw [if_pos hlast2]
  dsimp only
  split
  · -- the leftover word is flushed into the current line first
    have hAW := blAddWord_facts cfg st2 C.wf
    obtain ⟨alt, alb, btp, bbt, hfin⟩ := finalizeLine_line_spec sq (blAddWord cfg st2).result
      (blAddWord cfg st2).currentLine (blAddWord cfg st2).lineOffset cfg.anchor
      cfg.writingMode cfg.ltr (¬cfg.inlineSize.isAuto) false
    simp only [flattenBoxes, List.flatMap_append, List.flatMap_cons, List.flatMap_nil]
    rw [hfin]
    have hwi : (blAddWord cfg st2).wordIndices = [] := rfl
    have hthis : stContent (blAddWord cfg st2) = stContent st ++ [k] :=
      hAW.content.trans hcontent2
    simp only [stContent, hwi, List.append_nil] at hthis
    simp only [lbIndices] at hthis ⊢
    simpa [stContent, lbIndices, List.append_assoc] using hthis
  · -- wordIndices already empty
    rename_i hempty
    have hwi : st2.wordIndices = [] := by simpa using hempty
    obtain ⟨alt, alb, btp, bbt, hfin⟩ := finalizeLine_line_spec sq st2.result
      st2.currentLine st2.lineOffset cfg.anchor cfg.writingMode cfg.ltr
      (¬cfg.inlineSize.isAuto) false
    simp only [flattenBoxes, List.flatMap_append, List.flatMap_cons, List.flatMap_nil]
    rw [hfin]
    have hthis : stContent st2 = stContent st ++ [k] := hcontent2
    simp only [stContent, hwi, List.append_nil] at hthis
    simp only [lbIndices] at hthis ⊢
    simpa [stContent, lbIndices, List.append_assoc] using hthis

theorem setCurrentChunk_lastLine (lb : LineBox) (c : LineChunk) :
    (lb.setCurrentChunk c).lastLine = lb.lastLine := by
  unfold LineBox.setCurrentChunk
  dsimp only
  split <;> rfl

theorem blAddWord_lastLine (cfg : BLConfig) (st : BLState) :
    (blAddWord cfg st).currentLine.lastLine = st.currentLine.lastLine :=
  setCurrentChunk_lastLine _ _

theorem blAddWord_lineBoxes (cfg : BLConfig) (st : BLState) :
    (blAddWord cfg st).lineBoxes = st.lineBoxes := rfl

theorem blSoftBreakPhase_skip (cfg : BLConfig) (sq : ℚ → ℚ) (ti : QPointF) (st : BLState)
    (cr : CharacterResult) : blSoftBreakPhase cfg sq ti st false cr = st := by
  simp [blSoftBreakPhase]

theorem blHardPhase_skip (cfg : BLConfig) (sq : ℚ → ℚ) (ti : QPointF) (st : BLState)
    (cr : CharacterResult) (h : cr.breakType ≠ BreakType.HardBreak) :
    blHardPhase cfg sq ti st cr = st := by
  simp [blHardPhase, h]

theorem blLastPhase_skip (cfg : BLConfig) (sq : ℚ → ℚ) (st : BLState)
    (h : st.currentLine.lastLine = false) : blLastPhase cfg sq st = st := by
  simp [blLastPhase, h]

theorem blLastPhase_append (cfg : BLConfig) (sq : ℚ → ℚ) (st : BLState)
    (h : st.currentLine.lastLine = true) :
    ∃ x, (blLastPhase cfg sq st).lineBoxes = st.lineBoxes ++ [x] := by
  unfold blLastPhase
  rw [if_pos h]
  dsimp only
  split
  · exact ⟨_, by rw [blAddWord_lineBoxes]⟩
  · exact ⟨_, rfl⟩

theorem blFitWord_auto (cfg : BLConfig) (sp : QPointF) (st : BLState)
    (cr : CharacterResult) (hauto : cfg.inlineSize.isAuto = true) :
    (blFitWord cfg sp st cr).2 = false ∧
    (blFitWord cfg sp st cr).1.lineBoxes = st.lineBoxes ∧
    (blFitWord cfg sp st cr).1.currentLine.lastLine = st.currentLine.lastLine := by
  unfold blFitWord
  dsimp only
  rw [if_neg (not_not_intro hauto)]
  split
  · exact ⟨rfl, blAddWord_lineBoxes cfg st, blAddWord_lastLine cfg st⟩
  · exact ⟨rfl, rfl, rfl⟩

theorem blStep_auto_notLast_boxes (cfg : BLConfig) (sq : ℚ → ℚ) (sp ti : QPointF)
    (st : BLState) (k : ℕ) (hauto : cfg.inlineSize.isAuto = true)
    (haddr : (st.result.getD k default).addressable = true)
    (hnothard : (st.result.getD k default).breakType ≠ BreakType.HardBreak) :
    (blStep cfg sq sp ti false st k).lineBoxes = st.lineBoxes := by
  obtain ⟨a1, a2, a3, a4, a5⟩ := blAccum_facts false st k (st.result.getD k default)
  obtain ⟨hf2, hfb, hfl⟩ := blFitWord_auto cfg sp
    (blAccum false st k (st.result.getD k default)) (st.result.getD k default) hauto
  have hstep : blStep cfg sq sp ti false st k = blLastPhase cfg sq
      (blHardPhase cfg sq ti
        (blSoftBreakPhase cfg sq ti
          (blFitWord cfg sp (blAccum false st k (st.result.getD k default))
            (st.result.getD k default)).1
          (blFitWord cfg sp (blAccum false st k (st.result.getD k default))
            (st.result.getD k default)).2
          (st.result.getD k default))
        (st.result.getD k default)) := by
    unfold blStep
    dsimp only
    rw [if_neg (not_not_intro haddr)]
  rw [hstep, hf2, blSoftBreakPhase_skip, blHardPhase_skip _ _ _ _ _ hnothard,
    blLastPhase_skip _ _ _ (by rw [hfl, a4]), hfb, a5]

theorem blStep_auto_last_boxes (cfg : BLConfig) (sq : ℚ → ℚ) (sp ti : QPointF)
    (st : BLState) (k : ℕ) (hauto : cfg.inlineSize.isAuto = true)
    (haddr : (st.result.getD k default).addressable = true)
    (hnothard : (st.result.getD k default).breakType ≠ BreakType.HardBreak) :
    ∃ x, (blStep cfg sq sp ti true st k).lineBoxes = st.lineBoxes ++ [x] := by
  obtain ⟨a1, a2, a3, a4, a5⟩ := blAccum_facts true st k (st.result.getD k default)
  obtain ⟨hf2, hfb, hfl⟩ := blFitWord_auto cfg sp
    (blAccum true st k (st.result.getD k default)) (st.result.getD k default) hauto
  have hstep : blStep cfg sq sp ti true st k = blLastPhase cfg sq
      (blHardPhase cfg sq ti
        (blSoftBreakPhase cfg sq ti
          (blFitWord cfg sp (blAccum true st k (st.result.getD k default))
            (st.result.getD k default)).1
          (blFitWord cfg sp (blAccum true st k (st.result.getD k default))
            (st.result.getD k default)).2
          (st.result.getD k default))
        (st.result.getD k default)) := by
    unfold blStep
    dsimp only
    rw [if_neg (not_not_intro haddr)]
  rw [hstep, hf2, blSoftBreakPhase_skip, blHardPhase_skip _ _ _ _ _ hnothard]
  obtain ⟨x, hx⟩ := blLastPhase_append cfg sq
    (blFitWord cfg sp (blAccum true st k (st.result.getD k default))
      (st.result.getD k default)).1 (by rw [hfl, a4])
  exact ⟨x, by rw [hx, hfb, a5]⟩

theorem blLoop_flatten (cfg : BLConfig) (sq : ℚ → ℚ) (sp ti : QPointF)
    (result₀ : List CharacterResult) :
    ∀ (keys processed : List ℕ) (st : BLState), keys ≠ [] →
    (processed ++ keys).Nodup →
    (∀ j ∈ keys, (result₀.getD j default).addressable = true) →
    stContent st = processed →
    blWF st.currentLine →
    (∀ j, j ∉ processed → st.result.getD j default = result₀.getD j default) →
    flattenBoxes (blLoop cfg sq sp ti keys st) = processed ++ keys := by
  intro keys
  induction keys with
  | nil => intro processed st h; exact absurd rfl h
  | cons k rest ih =>
    intro processed st _ hnd haddr hcont hwf hconf
    have hknp : k ∉ processed := by
      have hdisj := List.disjoint_of_nodup_append hnd
      exact fun hm => hdisj hm (List.mem_cons_self k rest)
    have hk : (st.result.getD k default).addressable = true := by
      rw [hconf k hknp]
      exact haddr k (List.mem_cons_self k rest)
    cases rest with
    | nil =>
      show flattenBoxes (blStep cfg sq sp ti true st k) = processed ++ [k]
      rw [blStep_last_flatten cfg sq sp ti st k hwf hk, hcont]
    | cons k2 rest2 =>
      obtain ⟨s1, s2, s3, s4, s5⟩ := blStep_notLast_facts cfg sq sp ti st k hwf hk
      show flattenBoxes (blLoop cfg sq sp ti (k2 :: rest2) (blStep cfg sq sp ti false st k)) =
        processed ++ k :: k2 :: rest2
      have hnd' : ((processed ++ [k]) ++ (k2 :: rest2)).Nodup := by
        rw [List.append_assoc]
        exact hnd
      have := ih (processed ++ [k]) (blStep cfg sq sp ti false st k)
        (List.cons_ne_nil k2 rest2) hnd'
        (fun j hj => haddr j (List.mem_cons_of_mem _ hj))
        (by rw [s1, hcont])
        s3
        (fun j hj => by
          have hj1 : j ∉ processed := fun hm => hj (by
            simp only [List.mem_append]
            exact Or.inl hm)
          have hj2 : j ≠ k := fun hm => hj (by
            simp only [List.mem_append, List.mem_singleton]
            exact Or.inr hm)
          rw [s2 j (hcont ▸ hj1) hj2]
          exact hconf j hj1)
      rw [this, List.append_assoc]
      rfl

theorem blLoop_auto (cfg : BLConfig) (sq : ℚ → ℚ) (sp ti : QPointF)
    (result₀ : List CharacterResult) (hauto : cfg.inlineSize.isAuto = true) :
    ∀ (keys processed : List ℕ) (st : BLState), keys ≠ [] →
    (processed ++ keys).Nodup →
    (∀ j ∈ keys, (result₀.getD j default).addressable = true ∧
      (result₀.getD j default).breakType ≠ BreakType.HardBreak) →
    stContent st = processed →
    blWF st.currentLine →
    st.lineBoxes = [] →
    (∀ j, j ∉ processed → st.result.getD j default = result₀.getD j default) →
    (blLoop cfg sq sp ti keys st).lineBoxes.length = 1 := by
  intro keys
  induction keys with
  | nil => intro processed st h; exact absurd rfl h
  | cons k rest ih =>
    intro processed st _ hnd hkeys hcont hwf hboxes hconf
    have hknp : k ∉ processed := by
      have hdisj := List.disjoint_of_nodup_append hnd
      exact fun hm => hdisj hm (List.mem_cons_self k rest)
    have hcur : st.result.getD k default = result₀.getD k default := hconf k hknp
    have hk : (st.result.getD k default).addressable = true := by
      rw [hcur]; exact (hkeys k (List.mem_cons_self k rest)).1
    have hnh : (st.result.getD k default).breakType ≠ BreakType.HardBreak := by
      rw [hcur]; exact (hkeys k (List.mem_cons_self k rest)).2
    cases rest with
    | nil =>
      show (blStep cfg sq sp ti true st k).lineBoxes.length = 1
      obtain ⟨x, hx⟩ := blStep_auto_last_boxes cfg sq sp ti st k hauto hk hnh
      rw [hx, hboxes]
      rfl
    | cons k2 rest2 =>
      obtain ⟨s1, s2, s3, s4, s5⟩ := blStep_notLast_facts cfg sq sp ti st k hwf hk
      show (blLoop cfg sq sp ti (k2 :: rest2) (blStep cfg sq sp ti false st k)).lineBoxes.length = 1
      have hnd' : ((processed ++ [k]) ++ (k2 :: rest2)).Nodup := by
        rw [List.append_assoc]
        exact hnd
      exact ih (processed ++ [k]) (blStep cfg sq sp ti false st k)
        (List.cons_ne_nil k2 rest2) hnd'
        (fun j hj => hkeys j (List.mem_cons_of_mem _ hj))
        (by rw [s1, hcont])
        s3
        (by rw [blStep_auto_notLast_boxes cfg sq sp ti st k hauto hk hnh, hboxes])
        (fun j hj => by
          have hj1 : j ∉ processed := fun hm => hj (by
            simp only [List.mem_append]
            exact Or.inl hm)
          have hj2 : j ≠ k := fun hm => hj (by
            simp only [List.mem_append, List.mem_singleton]
            exact Or.inr hm)
          rw [s2 j (hcont ▸ hj1) hj2]
          exact hconf j hj1)

theorem blInit_content (cfg : BLConfig) (result : List CharacterResult) (sp : QPointF) :
    stContent (blInit cfg result sp) = [] := by
  unfold blInit stContent
  dsimp only
  split <;> simp [lbIndices, LineBox.ofStartEnd]

theorem blInit_wf (cfg : BLConfig) (result : List CharacterResult) (sp : QPointF) :
    blWF (blInit cfg result sp).currentLine := by
  unfold blInit
  dsimp only
  split <;> exact ⟨rfl, rfl⟩

theorem blInit_result (cfg : BLConfig) (result : List CharacterResult) (sp : QPointF) :
    (blInit cfg result sp).result = result := rfl

theorem blInit_lineBoxes (cfg : BLConfig) (result : List CharacterResult) (sp : QPointF) :
    (blInit cfg result sp).lineBoxes = [] := rfl

theorem clearAndAdjust_isEmpty (lb : LineBox) (ih : Bool) (cur ind : QPointF) :
    (lb.clearAndAdjust ih cur ind).isEmpty = true := by
  obtain ⟨L, h⟩ := clearAndAdjust_spec lb ih cur ind
  rw [h]
  unfold LineBox.isEmpty listValue
  norm_num

/-- The loop state reached just before the hard-break check of `breakLines`'s
loop body (advance accumulation, the word-fitting check and the soft-break
branch have run for the character at `k`). -/
def blStepMid (cfg : BLConfig) (sq : ℚ → ℚ) (sp ti : QPointF) (isLast : Bool)
    (st : BLState) (k : ℕ) : BLState :=
  blSoftBreakPhase cfg sq ti
    (blFitWord cfg sp (blAccum isLast st k (st.result.getD k default))
      (st.result.getD k default)).1
    (blFitWord cfg sp (blAccum isLast st k (st.result.getD k default))
      (st.result.getD k default)).2
    (st.result.getD k default)

/-- **C1.** In the simple line-breaking strategy, whenever an addressable
character whose break classification is a hard break is consumed, the loop
body unconditionally runs the hard-break block (`blHardAppend`), which
finalizes the current LineBox, appends it to the line-box list, and starts a
fresh (empty) LineBox — for every configuration `cfg`, hence independently of
whether an inline-size constraint is set or what its value is. -/
theorem hardBreak_always_finalizes_line (cfg : BLConfig) (sq : ℚ → ℚ) (sp ti : QPointF)
    (isLast : Bool) (st : BLState) (k : ℕ)
    (haddr : (st.result.getD k default).addressable = true)
    (hhard : (st.result.getD k default).breakType = BreakType.HardBreak) :
    blStep cfg sq sp ti isLast st k =
      blLastPhase cfg sq (blHardAppend cfg sq ti (blStepMid cfg sq sp ti isLast st k)) ∧
    (blHardAppend cfg sq ti (blStepMid cfg sq sp ti isLast st k)).lineBoxes =
      (blStepMid cfg sq sp ti isLast st k).lineBoxes ++
        [(finalizeLine sq (blStepMid cfg sq sp ti isLast st k).result
          (blStepMid cfg sq sp ti isLast st k).currentLine
          (blStepMid cfg sq sp ti isLast st k).lineOffset cfg.anchor cfg.writingMode
          cfg.ltr (¬cfg.inlineSize.isAuto) false).2.2.1] ∧
    (blHardAppend cfg sq ti (blStepMid cfg sq sp ti isLast st k)).currentLine.isEmpty = true := by
  refine ⟨?_, rfl, clearAndAdjust_isEmpty _ _ _ _⟩
  unfold blStep blStepMid
  dsimp only
  rw [if_neg (not_not_intro haddr)]
  unfold blHardPhase
  rw [if_pos hhard]

/-- Character vector used to instantiate the C1 theorem: a single hard-break
character. -/
def c1demo : List CharacterResult :=
  [{ breakType := BreakType.HardBreak, lineEnd := LineEdgeBehaviour.Collapse,
     lineStart := LineEdgeBehaviour.Collapse, visualIndex := 0 }]

/-- Witness for C1 at a concrete input. -/
theorem hardBreak_always_finalizes_line_witness :
    (((blInit {} c1demo 0).result.getD 0 default).addressable = true ∧
      ((blInit {} c1demo 0).result.getD 0 default).breakType = BreakType.HardBreak) ∧
    (blStep {} (fun _ => 0) 0 0 false (blInit {} c1demo 0) 0 =
      blLastPhase {} (fun _ => 0)
        (blHardAppend {} (fun _ => 0) 0 (blStepMid {} (fun _ => 0) 0 0 false (blInit {} c1demo 0) 0)) ∧
    (blHardAppend {} (fun _ => 0) 0
        (blStepMid {} (fun _ => 0) 0 0 false (blInit {} c1demo 0) 0)).lineBoxes =
      (blStepMid {} (fun _ => 0) 0 0 false (blInit {} c1demo 0) 0).lineBoxes ++
        [(finalizeLine (fun _ => 0)
          (blStepMid {} (fun _ => 0) 0 0 false (blInit {} c1demo 0) 0).result
          (blStepMid {} (fun _ => 0) 0 0 false (blInit {} c1demo 0) 0).currentLine
          (blStepMid {} (fun _ => 0) 0 0 false (blInit {} c1demo 0) 0).lineOffset
          ({} : BLConfig).anchor ({} : BLConfig).writingMode
          ({} : BLConfig).ltr (¬({} : BLConfig).inlineSize.isAuto) false).2.2.1] ∧
    (blHardAppend {} (fun _ => 0) 0
        (blStepMid {} (fun _ => 0) 0 0 false (blInit {} c1demo 0) 0)).currentLine.isEmpty = true) :=
  ⟨⟨by with_unfolding_all decide, by with_unfolding_all decide⟩,
   hardBreak_always_finalizes_line {} (fun _ => 0) 0 0 false (blInit {} c1demo 0) 0
     (by with_unfolding_all decide) (by with_unfolding_all decide)⟩

/-- **C2 counterexample.** The empty text buffer has no hard-break
characters and the default configuration has inline-size unset (auto), yet
`breakLines` produces zero LineBoxes, not exactly one. -/
theorem breakLines_empty_counterexample :
    ({} : BLConfig).inlineSize.isAuto = true ∧
    (breakLines {} (fun _ => 0) [] [] 0).lineBoxes.length = 0 :=
  ⟨rfl, rfl⟩

/-- **C2** (amended): for every buffer whose line-breaking iteration order
(`keys`, the `logicalToVisual` key list) is nonempty and duplicate-free,
whose iterated characters are all addressable and contain no hard break, line
breaking with inline-size unset (auto) produces exactly one LineBox. -/
theorem breakLines_auto_single_linebox (cfg : BLConfig) (sq : ℚ → ℚ) (keys : List ℕ)
    (result : List CharacterResult) (startPos : QPointF)
    (hauto : cfg.inlineSize.isAuto = true)
    (hne : keys ≠ []) (hnd : keys.Nodup)
    (hkeys : ∀ j ∈ keys, (result.getD j default).addressable = true ∧
      (result.getD j default).breakType ≠ BreakType.HardBreak) :
    (breakLines cfg sq keys result startPos).lineBoxes.length = 1 := by
  unfold breakLines
  exact blLoop_auto cfg sq startPos (blTextIndent cfg) result hauto keys []
    (blInit cfg result startPos) hne (by simpa using hnd) hkeys
    (blInit_content cfg result startPos) (blInit_wf cfg result startPos)
    (blInit_lineBoxes cfg result startPos)
    (fun j _ => by rw [blInit_result])

/-- Witness for the amended C2 at a concrete input: two plain characters,
one LineBox. -/
theorem breakLines_auto_single_linebox_witness :
    (({} : BLConfig).inlineSize.isAuto = true ∧ ([0, 1] : List ℕ) ≠ [] ∧
      ([0, 1] : List ℕ).Nodup ∧
      (∀ j ∈ ([0, 1] : List ℕ),
        (([{ visualIndex := 0 }, { visualIndex := 1 }] : List CharacterResult).getD j
          default).addressable = true ∧
        (([{ visualIndex := 0 }, { visualIndex := 1 }] : List CharacterResult).getD j
          default).breakType ≠ BreakType.HardBreak)) ∧
    (breakLines {} (fun _ => 0) [0, 1]
      [{ visualIndex := 0 }, { visualIndex := 1 }] 0).lineBoxes.length = 1 :=
  ⟨⟨rfl, by decide, by decide, by decide⟩,
   breakLines_auto_single_linebox {} (fun _ => 0) [0, 1]
     [{ visualIndex := 0 }, { visualIndex := 1 }] 0 rfl (by decide) (by decide) (by decide)⟩

/-- Character vector for the C3 counterexample: a hard-break character (its
line edges collapse) followed by a plain character, as produced for a text
buffer starting with a newline. -/
def c3demo : List CharacterResult :=
  [{ breakType := BreakType.HardBreak, lineEnd := LineEdgeBehaviour.Collapse,
     lineStart := LineEdgeBehaviour.Collapse, visualIndex := 0 },
   { visualIndex := 1 }]

/-- **C3 counterexample.** After the layout pass, character 0 (a collapsed
hard break) sits in a LineChunk's `chunkIndices`, yet its `addressable` flag
is false — so the union of all chunk character-index lists is not the set of
addressable character indices. -/
theorem chunkIndices_not_addressable_counterexample :
    0 ∈ (breakLines {} (fun _ => 0) [0, 1] c3demo 0).lineBoxes.flatMap lbIndices ∧
    ((breakLines {} (fun _ => 0) [0, 1] c3demo 0).result.getD 0 default).addressable = false := by
  with_unfolding_all decide

/-- **C3** (amended): in the simple line-breaking strategy, when the iterated
character indices are exactly the characters addressable at entry (the
pipeline invariant for `logicalToVisual`), the concatenation of all chunk
character-index lists over all LineBoxes equals that index list, and every
character that was addressable at entry appears in exactly one chunk.
(Characters collapsed at line edges keep their chunk slot but are marked
non-addressable during the pass, which is why the post-layout addressable
set can be a proper subset.) -/
theorem chunkIndices_partition_addressable (cfg : BLConfig) (sq : ℚ → ℚ) (keys : List ℕ)
    (result : List CharacterResult) (startPos : QPointF)
    (hne : keys ≠ []) (hnd : keys.Nodup)
    (hbound : ∀ j ∈ keys, j < result.length)
    (hiff : ∀ j, j < result.length →
      ((result.getD j default).addressable = true ↔ j ∈ keys)) :
    (breakLines cfg sq keys result startPos).lineBoxes.flatMap lbIndices = keys ∧
    ∀ j, j < result.length → (result.getD j default).addressable = true →
      ((breakLines cfg sq keys result startPos).lineBoxes.flatMap lbIndices).count j = 1 := by
  have haddr : ∀ j ∈ keys, (result.getD j default).addressable = true :=
    fun j hj => (hiff j (hbound j hj)).mpr hj
  have hflat : flattenBoxes (breakLines cfg sq keys result startPos) = [] ++ keys := by
    unfold breakLines
    exact blLoop_flatten cfg sq startPos (blTextIndent cfg) result keys []
      (blInit cfg result startPos) hne (by simpa using hnd) haddr
      (blInit_content cfg result startPos) (blInit_wf cfg result startPos)
      (fun j _ => by rw [blInit_result])
  rw [List.nil_append] at hflat
  refine ⟨hflat, ?_⟩
  intro j hlt hj
  have hjk : j ∈ keys := (hiff j hlt).mp hj
  have : (breakLines cfg sq keys result startPos).lineBoxes.flatMap lbIndices = keys := hflat
  rw [this]
  exact List.count_eq_one_of_mem hnd hjk

/-- Witness for the amended C3 at a concrete input. -/
theorem chunkIndices_partition_addressable_witness :
    ((([0, 1] : List ℕ) ≠ [] ∧ ([0, 1] : List ℕ).Nodup ∧
      (∀ j ∈ ([0, 1] : List ℕ),
        j < ([{ visualIndex := 0 }, { visualIndex := 1 }] : List CharacterResult).length) ∧
      (∀ j, j < ([{ visualIndex := 0 }, { visualIndex := 1 }] : List CharacterResult).length →
        ((([{ visualIndex := 0 }, { visualIndex := 1 }] : List CharacterResult).getD j
          default).addressable = true ↔ j ∈ ([0, 1] : List ℕ)))) ∧
    ((breakLines {} (fun _ => 0) [0, 1]
        [{ visualIndex := 0 }, { visualIndex := 1 }] 0).lineBoxes.flatMap lbIndices = [0, 1] ∧
      ∀ j, j < ([{ visualIndex := 0 }, { visualIndex := 1 }] : List CharacterResult).length →
        (([{ visualIndex := 0 }, { visualIndex := 1 }] : List CharacterResult).getD j
          default).addressable = true →
        ((breakLines {} (fun _ => 0) [0, 1]
          [{ visualIndex := 0 }, { visualIndex := 1 }] 0).lineBoxes.flatMap
            lbIndices).count j = 1)) :=
  ⟨⟨by decide, by decide, by decide, by decide⟩,
   chunkIndices_partition_addressable {} (fun _ => 0) [0, 1]
     [{ visualIndex := 0 }, { visualIndex := 1 }] 0 (by decide) (by decide) (by decide)
     (by decide)⟩

/-! ### Text on a path: `characterResultOnPath` (lines 3387–3418) -/

/-- Truncation toward zero, matching the C cast semantics underlying `fmod`. -/
def ratTrunc (q : ℚ) : ℤ := if 0 ≤ q then ⌊q⌋ else ⌈q⌉

/-- C `fmod(x, y)`: the remainder `x - trunc(x / y) * y` with the sign of `x`. -/
def cfmod (x y : ℚ) : ℚ := x - (ratTrunc (x / y) : ℚ) * y

/-- The inline-axis midpoint `mid` computed at the head of
`characterResultOnPath` (lines 3390–3393): `finalPosition + advance * 0.5 +
offset` on the inline axis. -/
def pathMid (cr : CharacterResult) (offset : ℚ) (isHorizontal : Bool) : ℚ :=
  if isHorizontal then cr.finalPosition.x + cr.advance.x * (1 / 2) + offset
  else cr.finalPosition.y + cr.advance.y * (1 / 2) + offset

/-- `KoSvgTextShape::Private::characterResultOnPath`: hide out-of-range
characters (range depending on anchor and direction for closed paths), then
wrap `mid` modulo the path length for closed paths.  Returns the updated
character and the returned `mid`. -/
def characterResultOnPath (cr : CharacterResult) (length offset : ℚ)
    (isHorizontal isClosed : Bool) : CharacterResult × ℚ :=
  let rtl := cr.direction = Direction.DirectionRightToLeft
  let mid := pathMid cr offset isHorizontal
  if isClosed then
    ((if (cr.anchor = TextAnchor.AnchorStart ∧ ¬rtl) ∨
         (cr.anchor = TextAnchor.AnchorEnd ∧ rtl) then
        (if mid - offset < 0 ∨ mid - offset > length then { cr with hidden := true } else cr)
      else if (cr.anchor = TextAnchor.AnchorEnd ∧ ¬rtl) ∨
              (cr.anchor = TextAnchor.AnchorStart ∧ rtl) then
        (if mid - offset < -length ∨ mid - offset > 0 then { cr with hidden := true } else cr)
      else
        (if mid - offset < -(length * (1 / 2)) ∨ mid - offset > length * (1 / 2) then
          { cr with hidden := true }
         else cr)),
     cfmod (if mid < 0 then mid + length else mid) length)
  else
    (if mid < 0 ∨ mid > length then ({ cr with hidden := true }, mid) else (cr, mid))

/-- **C5.** For text on a closed path with `anchor = middle` (and a character
not already hidden), `characterResultOnPath` returns the path coordinate
`fmod(mid', length)` where `mid'` is `mid` with the path length added once when
`mid` is negative, and it marks the character hidden exactly when
`mid - offset` lies outside the interval `[-length/2, length/2]`. -/
theorem textPath_closed_middle_modulo (cr : CharacterResult) (length offset : ℚ)
    (isHorizontal : Bool) (hanchor : cr.anchor = TextAnchor.AnchorMiddle)
    (hhid : cr.hidden = false) :
    (characterResultOnPath cr length offset isHorizontal true).2 =
      cfmod (if pathMid cr offset isHorizontal < 0 then pathMid cr offset isHorizontal + length
             else pathMid cr offset isHorizontal) length ∧
    ((characterResultOnPath cr length offset isHorizontal true).1.hidden = true ↔
      (pathMid cr offset isHorizontal - offset < -(length * (1 / 2)) ∨
       pathMid cr offset isHorizontal - offset > length * (1 / 2))) := by
  have h1 : ¬((cr.anchor = TextAnchor.AnchorStart ∧
        ¬(cr.direction = Direction.DirectionRightToLeft)) ∨
      (cr.anchor = TextAnchor.AnchorEnd ∧ cr.direction = Direction.DirectionRightToLeft)) := by
    simp [hanchor]
  have h2 : ¬((cr.anchor = TextAnchor.AnchorEnd ∧
        ¬(cr.direction = Direction.DirectionRightToLeft)) ∨
      (cr.anchor = TextAnchor.AnchorStart ∧ cr.direction = Direction.DirectionRightToLeft)) := by
    simp [hanchor]
  simp only [characterResultOnPath, if_pos rfl, if_neg h1, if_neg h2]
  refine ⟨rfl, ?_⟩
  by_cases hcond : pathMid cr offset isHorizontal - offset < -(length * (1 / 2)) ∨
      pathMid cr offset isHorizontal - offset > length * (1 / 2)
  · rw [if_pos hcond]
    exact iff_of_true rfl hcond
  · rw [if_neg hcond]
    exact iff_of_false (by simp [hhid]) hcond

/-- Witness for C5 at a concrete character, path length 10 and offset 2. -/
theorem textPath_closed_middle_modulo_witness :
    (characterResultOnPath { anchor := TextAnchor.AnchorMiddle } 10 2 true true).2 =
      cfmod (if pathMid { anchor := TextAnchor.AnchorMiddle } 2 true < 0 then
               pathMid { anchor := TextAnchor.AnchorMiddle } 2 true + 10
             else pathMid { anchor := TextAnchor.AnchorMiddle } 2 true) 10 ∧
    ((characterResultOnPath { anchor := TextAnchor.AnchorMiddle } 10 2 true true).1.hidden =
        true ↔
      (pathMid { anchor := TextAnchor.AnchorMiddle } 2 true - 2 < -((10 : ℚ) * (1 / 2)) ∨
       pathMid { anchor := TextAnchor.AnchorMiddle } 2 true - 2 > (10 : ℚ) * (1 / 2))) :=
  textPath_closed_middle_modulo { anchor := TextAnchor.AnchorMiddle } 10 2 true rfl rfl

/-! ### Hard-break substitution before shaping (relayout, lines 704–784) -/

/-- Break classification of a single UTF-16 position as produced by
libunibreak's `set_linebreaks_utf16`. -/
inductive LineBreakClass where
  | MUSTBREAK
  | ALLOWBREAK
  | NOBREAK
  | INSIDEACHAR
deriving DecidableEq, Repr

instance : Inhabited LineBreakClass := ⟨LineBreakClass.NOBREAK⟩

/-- `KoSvgText::TextWrap` (the values distinguished by the modelled code). -/
inductive TextWrap where
  | Wrap
  | NoWrap
  | Balance
deriving DecidableEq, Repr

/-- The substitution loop of `relayout` (lines 721–725): every position whose
break classification is `LINEBREAK_MUSTBREAK` is replaced in the text buffer
by an ordinary space. -/
def substituteHardBreaks (text : List Char) (lineBreaks : List LineBreakClass) : List Char :=
  List.zipWith (fun c lb => if lb = LineBreakClass.MUSTBREAK then ' ' else c) text lineBreaks

/-- The text handed to the bidi/shaping stage (`raqm_set_text_utf16`, line
732): the classifier runs on the original text (line 709), then the buffer is
substituted. -/
def raqmInputText (computeLineBreaks : List Char → List LineBreakClass)
    (text : List Char) : List Char :=
  substituteHardBreaks text (computeLineBreaks text)

/-- Lines 774–784 of `relayout`: assignment of `breakType`, `lineEnd` and
`lineStart` from the break classification computed before the substitution.
`collapseLast` stands for the externally computed
`KoCssTextUtils::collapseLastSpace(text.at(start + i), collapse)`. -/
def assignBreakFlags (wrap : TextWrap) (collapseLast : Bool) (lb : LineBreakClass)
    (cr : CharacterResult) : CharacterResult :=
  if lb = LineBreakClass.MUSTBREAK then
    { cr with
      breakType := BreakType.HardBreak
      lineEnd := LineEdgeBehaviour.Collapse
      lineStart := LineEdgeBehaviour.Collapse }
  else if lb = LineBreakClass.ALLOWBREAK ∧ wrap ≠ TextWrap.NoWrap then
    if collapseLast then
      { cr with
        breakType := BreakType.SoftBreak
        lineEnd := LineEdgeBehaviour.Collapse
        lineStart := LineEdgeBehaviour.Collapse }
    else { cr with breakType := BreakType.SoftBreak }
  else cr

theorem substituteHardBreaks_getD (text : List Char) (lbs : List LineBreakClass) (i : ℕ)
    (d : Char) (hi : i < text.length) (hl : lbs.length = text.length) :
    (substituteHardBreaks text lbs).getD i d =
      if lbs.getD i default = LineBreakClass.MUSTBREAK then ' ' else text.getD i d := by
  induction text generalizing lbs i with
  | nil => simp at hi
  | cons c cs ih =>
    cases lbs with
    | nil => simp at hl
    | cons b bs =>
      cases i with
      | zero => simp [substituteHardBreaks]
      | succ n =>
        have hn : n < cs.length := by simpa using hi
        have hbl : bs.length = cs.length := by simpa using hl
        simpa [substituteHardBreaks] using ih bs n hn hbl

/-- **C7.** Every position classified as a mandatory break is an ordinary
space in the buffer handed to the bidi/shaping stage, while the per-character
break data assigned from the (pre-substitution) classification gives it
`breakType = HardBreak` with collapsing line edges. -/
theorem hardBreak_substitution (computeLineBreaks : List Char → List LineBreakClass)
    (text : List Char) (wrap : TextWrap) (collapseLast : Bool) (cr : CharacterResult)
    (i : ℕ) (hi : i < text.length)
    (hlen : (computeLineBreaks text).length = text.length)
    (hmust : (computeLineBreaks text).getD i default = LineBreakClass.MUSTBREAK) :
    (raqmInputText computeLineBreaks text).getD i 'x' = ' ' ∧
    (assignBreakFlags wrap collapseLast ((computeLineBreaks text).getD i default)
        cr).breakType = BreakType.HardBreak ∧
    (assignBreakFlags wrap collapseLast ((computeLineBreaks text).getD i default)
        cr).lineEnd = LineEdgeBehaviour.Collapse ∧
    (assignBreakFlags wrap collapseLast ((computeLineBreaks text).getD i default)
        cr).lineStart = LineEdgeBehaviour.Collapse := by
  refine ⟨?_, ?_, ?_, ?_⟩
  · rw [raqmInputText, substituteHardBreaks_getD text (computeLineBreaks text) i _ hi hlen,
      if_pos hmust]
  all_goals rw [assignBreakFlags, if_pos hmust]

/-- Witness for C7: a classifier marking every position a mandatory break,
applied to a two-character text at position 0. -/
theorem hardBreak_substitution_witness :
    (raqmInputText (fun t => List.replicate t.length LineBreakClass.MUSTBREAK)
        ['a', 'b']).getD 0 'x' = ' ' ∧
    (assignBreakFlags TextWrap.Wrap false
        ((List.replicate (['a', 'b'] : List Char).length
            LineBreakClass.MUSTBREAK).getD 0 default) {}).breakType = BreakType.HardBreak ∧
    (assignBreakFlags TextWrap.Wrap false
        ((List.replicate (['a', 'b'] : List Char).length
            LineBreakClass.MUSTBREAK).getD 0 default) {}).lineEnd =
      LineEdgeBehaviour.Collapse ∧
    (assignBreakFlags TextWrap.Wrap false
        ((List.replicate (['a', 'b'] : List Char).length
            LineBreakClass.MUSTBREAK).getD 0 default) {}).lineStart =
      LineEdgeBehaviour.Collapse :=
  hardBreak_substitution (fun t => List.replicate t.length LineBreakClass.MUSTBREAK)
    ['a', 'b'] TextWrap.Wrap false {} 0 (by decide) rfl rfl

/-! ### Italic (oblique) synthesis (relayout, lines 1027–1092) -/

/-- The affine part of a `QTransform` (row-vector convention: a point `p` maps
to `p * M`; `m31`/`m32` are the translation). -/
structure QTransform where
  m11 : ℚ := 1
  m12 : ℚ := 0
  m21 : ℚ := 0
  m22 : ℚ := 1
  m31 : ℚ := 0
  m32 : ℚ := 0
deriving DecidableEq, Repr

def QTransform.ident : QTransform := {}

/-- `QTransform::operator*`: `a.mulT b` maps a point through `a`, then `b`. -/
def QTransform.mulT (a b : QTransform) : QTransform :=
  { m11 := a.m11 * b.m11 + a.m12 * b.m21
    m12 := a.m11 * b.m12 + a.m12 * b.m22
    m21 := a.m21 * b.m11 + a.m22 * b.m21
    m22 := a.m21 * b.m12 + a.m22 * b.m22
    m31 := a.m31 * b.m11 + a.m32 * b.m21 + b.m31
    m32 := a.m31 * b.m12 + a.m32 * b.m22 + b.m32 }

def QTransform.fromTranslate (dx dy : ℚ) : QTransform := { m31 := dx, m32 := dy }

/-- `QTransform().shear(sh, sv)` starting from the identity. -/
def shearMat (sh sv : ℚ) : QTransform := { m12 := sv, m21 := sh }

/-- The `constexpr double SLANT_14DEG` of line 1035 (CSS `oblique` with no
angle: tan 14° as written in the source). -/
def SLANT_14DEG : ℚ := 0.24932800284318069162403993780486

/-- The `constexpr double SLANT_BITMAP` of line 1070. -/
def SLANT_BITMAP : ℚ := 0.25

/-- Lines 1030–1046: the oblique transform synthesised for an outline glyph
(`glyphObliqueTf`); the identity when the branch is not taken. -/
def glyphObliqueTf (fontStyle : FontStyle) (faceItalicFlag isHorizontal : Bool) : QTransform :=
  if fontStyle ≠ FontStyle.StyleNormal ∧ faceItalicFlag = false then
    (if isHorizontal then shearMat SLANT_14DEG 0 else shearMat 0 (-SLANT_14DEG))
  else QTransform.ident

/-- Lines 1065–1082: the shear transform applied to a bitmap glyph image,
`none` when the branch is not taken.  `faceItalicFlag` is
`ftface->style_flags & FT_STYLE_FLAG_ITALIC`; `bitmapTop` and `imageHalfWidth`
feed the baseline translation (`shearAt`). -/
def bitmapItalicTf (fontStyle : FontStyle) (faceItalicFlag isHorizontal : Bool)
    (bitmapTop imageHalfWidth : ℚ) : Option QTransform :=
  if fontStyle ≠ FontStyle.StyleNormal ∧ faceItalicFlag = false then
    let S := if isHorizontal then shearMat (-SLANT_BITMAP) 0 else shearMat 0 SLANT_BITMAP
    let sx := if isHorizontal then 0 else imageHalfWidth
    let sy := if isHorizontal then bitmapTop else 0
    some (((QTransform.fromTranslate (-sx) (-sy)).mulT S).mulT (QTransform.fromTranslate sx sy))
  else none

theorem bitmapItalicTf_pos (fs : FontStyle) (flag ih : Bool) (bt hw : ℚ)
    (hc : fs ≠ FontStyle.StyleNormal ∧ flag = false) :
    bitmapItalicTf fs flag ih bt hw =
      some (((QTransform.fromTranslate (-(if ih then 0 else hw)) (-(if ih then bt else 0))).mulT
          (if ih then shearMat (-SLANT_BITMAP) 0 else shearMat 0 SLANT_BITMAP)).mulT
        (QTransform.fromTranslate (if ih then 0 else hw) (if ih then bt else 0))) := by
  simp only [bitmapItalicTf, if_pos hc]

/-- **C8.** A shear is synthesised exactly when the requested font style is
non-normal and the face lacks the native italic flag (so synthetic and native
italic never combine), and the shear amount is the fixed 14° slant constant
for outline glyphs and 0.25 for bitmap glyphs (sheared around the baseline,
which leaves the linear part untouched). -/
theorem italic_synthesis (fs : FontStyle) (flag ih : Bool) (bt hw : ℚ) :
    (glyphObliqueTf fs flag ih ≠ QTransform.ident ↔
      (fs ≠ FontStyle.StyleNormal ∧ flag = false)) ∧
    ((bitmapItalicTf fs flag ih bt hw).isSome = true ↔
      (fs ≠ FontStyle.StyleNormal ∧ flag = false)) ∧
    (glyphObliqueTf fs flag ih =
      if fs ≠ FontStyle.StyleNormal ∧ flag = false then
        (if ih then shearMat SLANT_14DEG 0 else shearMat 0 (-SLANT_14DEG))
      else QTransform.ident) ∧
    (bitmapItalicTf fs flag ih bt hw = none ∨
      ∃ tf, bitmapItalicTf fs flag ih bt hw = some tf ∧
        tf.m21 = (if ih then -SLANT_BITMAP else 0) ∧
        tf.m12 = (if ih then 0 else SLANT_BITMAP) ∧
        tf.m11 = 1 ∧ tf.m22 = 1) := by
  by_cases hc : fs ≠ FontStyle.StyleNormal ∧ flag = false
  · refine ⟨?_, ?_, ?_, Or.inr ?_⟩
    · simp only [glyphObliqueTf, if_pos hc]
      refine iff_of_true ?_ hc
      cases ih <;>
        simp [shearMat, QTransform.ident, SLANT_14DEG, QTransform.mk.injEq] <;> norm_num
    · rw [bitmapItalicTf_pos fs flag ih bt hw hc]
      exact iff_of_true rfl hc
    · simp only [glyphObliqueTf, if_pos hc]
    · refine ⟨_, bitmapItalicTf_pos fs flag ih bt hw hc, ?_, ?_, ?_, ?_⟩ <;>
        cases ih <;>
          norm_num [QTransform.mulT, QTransform.fromTranslate, shearMat, SLANT_BITMAP]
  · refine ⟨?_, ?_, ?_, Or.inl ?_⟩
    · rw [glyphObliqueTf, if_neg hc]
      exact iff_of_false (by simp) hc
    · rw [bitmapItalicTf, if_neg hc]
      exact iff_of_false (by simp) hc
    · simp only [glyphObliqueTf, if_neg hc]
    · rw [bitmapItalicTf, if_neg hc]

/-- Witness for C8 at italic style, no native italic flag, horizontal mode. -/
theorem italic_synthesis_witness :
    glyphObliqueTf FontStyle.StyleItalic false true = shearMat SLANT_14DEG 0 := by
  have h := (italic_synthesis FontStyle.StyleItalic false true 3 2).2.2.1
  simpa using h

/-! ### The relayout pipeline state (claims C4 and C10) -/

/-- The private state of `KoSvgTextShape` caching layout output
(`d->result` and `d->lineBoxes`). -/
structure TextShapePrivate where
  result : List CharacterResult := []
  lineBoxes : List LineBox := []
deriving DecidableEq, Repr

/-- `KoSvgTextShape::relayout` as consumed by claims C4 and C10: `shaped` is
the per-character output of the external shaping stage (`raqm_get_glyphs`
and the glyph loop), with `none` modelling the null glyph array checked at
lines 979–981, which returns before anything is stored.  On success the
results run through line breaking and are stored into the private state
(lines 1254–1256 for `d->lineBoxes`, line 1357 for `d->result`); `sq` is the
square-root oracle of `QLineF::length` and `keys` the `logicalToVisual` key
list. -/
def relayoutModel (priv : TextShapePrivate) (shaped : Option (List CharacterResult))
    (cfg : BLConfig) (sq : ℚ → ℚ) (keys : List ℕ) (startPos : QPointF) : TextShapePrivate :=
  match shaped with
  | none => priv
  | some res =>
    let st := breakLines cfg sq keys res startPos
    { priv with result := st.result, lineBoxes := st.lineBoxes }

/-- **C10.** When the shaper returns no glyph array, `relayout` returns before
`d->result` and `d->lineBoxes` are overwritten: the cached layout state is
unchanged on this failure path. -/
theorem relayout_null_glyphs_preserves_state (priv : TextShapePrivate)
    (shaped : Option (List CharacterResult)) (cfg : BLConfig) (sq : ℚ → ℚ)
    (keys : List ℕ) (startPos : QPointF) (h : shaped = none) :
    (relayoutModel priv shaped cfg sq keys startPos).result = priv.result ∧
    (relayoutModel priv shaped cfg sq keys startPos).lineBoxes = priv.lineBoxes := by
  subst h
  exact ⟨rfl, rfl⟩

/-- Witness for C10 on a nonempty cached state. -/
theorem relayout_null_glyphs_preserves_state_witness :
    (relayoutModel { result := [{}], lineBoxes := [{}] } none {} (fun _ => 0) []
        0).result = ({ result := [{}], lineBoxes := [{}] } : TextShapePrivate).result ∧
    (relayoutModel { result := [{}], lineBoxes := [{}] } none {} (fun _ => 0) []
        0).lineBoxes = ({ result := [{}], lineBoxes := [{}] } : TextShapePrivate).lineBoxes :=
  relayout_null_glyphs_preserves_state { result := [{}], lineBoxes := [{}] } none {}
    (fun _ => 0) [] 0 rfl

/-- **C4.** Determinism of the layout pass as a two-run equality: the embedded
pipeline reads nothing but its inputs (text-derived character results, the
properties, the iteration order and the geometric oracle), so two runs on
identical inputs store identical per-character results and line boxes. -/
theorem relayout_deterministic (p1 p2 : TextShapePrivate)
    (s1 s2 : Option (List CharacterResult)) (c1 c2 : BLConfig) (sq1 sq2 : ℚ → ℚ)
    (k1 k2 : List ℕ) (sp1 sp2 : QPointF)
    (hp : p1 = p2) (hs : s1 = s2) (hc : c1 = c2) (hq : sq1 = sq2) (hk : k1 = k2)
    (hsp : sp1 = sp2) :
    relayoutModel p1 s1 c1 sq1 k1 sp1 = relayoutModel p2 s2 c2 sq2 k2 sp2 := by
  subst hp
  subst hs
  subst hc
  subst hq
  subst hk
  subst hsp
  rfl

/-- Witness for C4: two runs on one concrete nonempty input coincide. -/
theorem relayout_deterministic_witness :
    relayoutModel {} (some [{}, { visualIndex := 1 }]) {} (fun q => q) [0] 0 =
      relayoutModel {} (some [{}, { visualIndex := 1 }]) {} (fun q => q) [0] 0 :=
  relayout_deterministic {} {} (some [{}, { visualIndex := 1 }])
    (some [{}, { visualIndex := 1 }]) {} {} (fun q => q) (fun q => q) [0] [0] 0 0
    rfl rfl rfl rfl rfl rfl

/-! ### `applyTextLength` (lines 2700–2809) -/

/-- `KoSvgText::LengthAdjust`. -/
inductive LengthAdjust where
  | LengthAdjustSpacing
  | LengthAdjustSpacingAndGlyphs
deriving DecidableEq, Repr

/-! The styled-run tree walked by `applyTextLength`: each chunk shape carries
its `textLength` and `lengthAdjust` properties, its child shapes, and the
number of characters belonging to it directly (not inside a child), so that
`numChars` is the `numChars(true)` of its layout interface. -/
mutual
inductive TextNode where
  | mk : AutoValue → LengthAdjust → TextNodeForest → ℕ → TextNode
inductive TextNodeForest where
  | nil : TextNodeForest
  | cons : TextNode → TextNodeForest → TextNodeForest
end

mutual
def numChars : TextNode → ℕ
  | .mk _ _ children extra => extra + numCharsForest children
def numCharsForest : TextNodeForest → ℕ
  | .nil => 0
  | .cons t ts => numChars t + numCharsForest ts
end

mutual
def allAuto : TextNode → Bool
  | .mk tl _ children _ => tl.isAuto && allAutoForest children
def allAutoForest : TextNodeForest → Bool
  | .nil => true
  | .cons t ts => allAuto t && allAutoForest ts
end

/-- `QTransform::fromScale(sx, sy).mapRect`, including Qt's normalisation of a
negative scaled width or height. -/
def fromScaleMapRect (sx sy : ℚ) (r : QRectF) : QRectF :=
  let x := sx * r.rx
  let y := sy * r.ry
  let w := sx * r.rw
  let h := sy * r.rh
  let xw := if w < 0 then (x - -w, -w) else (x, w)
  let yh := if h < 0 then (y - -h, -h) else (y, h)
  ⟨xw.1, yh.1, xw.2, yh.2⟩

/-- One iteration of the `for (int k = i; k < j; k++)` scan of
`applyTextLength` (lines 2724–2748), accumulating `(a, b, n, visualToLogical)`. -/
def atlScanStep (result : List CharacterResult) (isHorizontal : Bool) (i : ℕ)
    (acc : ℚ × ℚ × ℤ × List (ℤ × ℕ)) (k : ℕ) : ℚ × ℚ × ℤ × List (ℤ × ℕ) :=
  let cr := result.getD k default
  if cr.addressable then
    let m := if cr.visualIndex > -1 then mapInsert cr.visualIndex k acc.2.2.2 else acc.2.2.2
    let pos := inlineCoord isHorizontal cr.finalPosition
    let adv := inlineCoord isHorizontal cr.advance
    let a := if k = i then min pos (pos + adv) else min acc.1 (min pos (pos + adv))
    let b := if k = i then max pos (pos + adv) else max acc.2.1 (max pos (pos + adv))
    let n := if ¬cr.textLengthApplied then acc.2.2.1 + 1 else acc.2.2.1
    (a, b, n, m)
  else acc

/-- One iteration of the `Q_FOREACH (int k, visualToLogical.keys())` loop of
`applyTextLength` (lines 2760–2780), threading `(result, shift,
secondTextLengthApplied)`. -/
def atlChunkStep (d : QPointF) (sag : Bool) (lastKey : ℤ)
    (st : List CharacterResult × QPointF × Bool) (kv : ℤ × ℕ) :
    List CharacterResult × QPointF × Bool :=
  let cr := st.1.getD kv.2 default
  if cr.addressable then
    let cr := { cr with finalPosition := cr.finalPosition + st.2.1 }
    let cr :=
      if sag then
        let sx := if d.x ≠ 0 then d.x / cr.advance.x + 1 else 1
        let sy := if d.y ≠ 0 then d.y / cr.advance.y + 1 else 1
        { cr with
          path := cr.path.map (fun p => ⟨sx * p.x, sy * p.y⟩)
          advance := ⟨sx * cr.advance.x, sy * cr.advance.y⟩
          boundingBox := fromScaleMapRect sx sy cr.boundingBox }
      else cr
    let last : Bool := if sag then false else kv.1 == lastKey
    let shift := if !(cr.textLengthApplied && st.2.2) && !last then st.2.1 + d else st.2.1
    let second := cr.textLengthApplied
    let cr := { cr with textLengthApplied := true }
    (st.1.set kv.2 cr, shift, second)
  else (st.1.set kv.2 cr, st.2.1, st.2.2)

/-- The forward collection loop of lines 2788–2793 (stop before the first
`anchored_chunk`). -/
def atlForwardStep (result : List CharacterResult)
    (acc : List (ℤ × ℕ) × Bool) (k : ℕ) : List (ℤ × ℕ) × Bool :=
  if acc.2 then acc
  else
    let cr := result.getD k default
    if cr.anchored_chunk then (acc.1, true)
    else (mapInsert cr.visualIndex k acc.1, false)

/-- The backward collection loop of lines 2795–2800 (insert, then stop on an
`anchored_chunk`). -/
def atlBackwardStep (result : List CharacterResult)
    (acc : List (ℤ × ℕ) × Bool) (k : ℕ) : List (ℤ × ℕ) × Bool :=
  if acc.2 then acc
  else
    let cr := result.getD k default
    (mapInsert cr.visualIndex k acc.1, cr.anchored_chunk)

/-- The non-auto branch of `applyTextLength` (lines 2720–2805): scan the range
for extents and count, compute the per-item delta, walk the chunk in visual
order shifting and optionally scaling, then push the final shift onto the
following (and preceding, for rtl) characters of the same anchored chunk. -/
def atlNonAuto (textLength : ℚ) (sag isHorizontal : Bool) (resolvedChildren : ℤ)
    (i j : ℕ) (result : List CharacterResult) : List CharacterResult :=
  let scan := (List.range' i (j - i)).foldl (atlScanStep result isHorizontal i) (0, 0, 0, [])
  let n0 := scan.2.2.1 + resolvedChildren
  let n := if ¬sag then n0 - 1 else n0
  let delta := textLength - (scan.2.1 - scan.1)
  let d : QPointF := if isHorizontal then ⟨delta / (n : ℚ), 0⟩ else ⟨0, delta / (n : ℚ)⟩
  let m := scan.2.2.2
  let lastKey := (m.map Prod.fst).getLast?.getD 0
  let loop := m.foldl (atlChunkStep d sag lastKey) (result, 0, false)
  let result := loop.1
  let shift := loop.2.1
  let fwd := (List.range' j (result.length - j)).foldl (atlForwardStep result) ([], false)
  let m2 := ((List.range (i + 1)).reverse).foldl (atlBackwardStep result) (fwd.1, false)
  m2.1.foldl
    (fun r kv =>
      if kv.1 > lastKey then
        r.set kv.2
          { r.getD kv.2 default with
            finalPosition := (r.getD kv.2 default).finalPosition + shift }
      else r)
    result

/-! `KoSvgTextShape::Private::applyTextLength`: recurse into the children
(threading `currentIndex` and accumulating `resolvedChildren`), then apply the
non-auto adjustment over this node's range when its `textLength` is set.
Returns `(result, currentIndex, increment of the caller's
resolvedDescendentNodes)`: the counter is incremented (line 2781) only inside
the non-auto branch, and `currentIndex` always ends at `i + numChars` (line
2808). -/
mutual
def applyTextLength : TextNode → List CharacterResult → ℕ → Bool →
    List CharacterResult × ℕ × ℕ
  | .mk tl la children extra, result, currentIndex, isHorizontal =>
    let i := currentIndex
    let j := i + numChars (.mk tl la children extra)
    let rec1 := applyTextLengthForest children result currentIndex isHorizontal
    if ¬tl.isAuto then
      (atlNonAuto tl.customValue (la = LengthAdjust.LengthAdjustSpacingAndGlyphs)
        isHorizontal (rec1.2.2 : ℤ) i j rec1.1, j, 1)
    else (rec1.1, j, 0)
def applyTextLengthForest : TextNodeForest → List CharacterResult → ℕ → Bool →
    List CharacterResult × ℕ × ℕ
  | .nil, result, currentIndex, _ => (result, currentIndex, 0)
  | .cons t ts, result, currentIndex, isHorizontal =>
    let r1 := applyTextLength t result currentIndex isHorizontal
    let r2 := applyTextLengthForest ts r1.1 r1.2.1 isHorizontal
    (r2.1, r2.2.1, r1.2.2 + r2.2.2)
end

mutual
theorem atlAuto_node (t : TextNode) (result : List CharacterResult) (ci : ℕ)
    (isHorizontal : Bool) (h : allAuto t = true) :
    applyTextLength t result ci isHorizontal = (result, ci + numChars t, 0) := by
  cases t with
  | mk tl la children extra =>
    have hparts : tl.isAuto = true ∧ allAutoForest children = true := by
      simpa [allAuto, Bool.and_eq_true] using h
    rw [applyTextLength]
    rw [atlAuto_forest children result ci isHorizontal hparts.2]
    simp [hparts.1]
theorem atlAuto_forest (f : TextNodeForest) (result : List CharacterResult) (ci : ℕ)
    (isHorizontal : Bool) (h : allAutoForest f = true) :
    applyTextLengthForest f result ci isHorizontal = (result, ci + numCharsForest f, 0) := by
  cases f with
  | nil => simp [applyTextLengthForest, numCharsForest]
  | cons t ts =>
    have hparts : allAuto t = true ∧ allAutoForest ts = true := by
      simpa [allAutoForest, Bool.and_eq_true] using h
    rw [applyTextLengthForest]
    rw [atlAuto_node t result ci isHorizontal hparts.1]
    rw [atlAuto_forest ts result (ci + numChars t) isHorizontal hparts.2]
    simp [numCharsForest, Nat.add_assoc]
end

/-- **C6.** When every `textLength` in the subtree is auto (unset), the
`applyTextLength` stage is the identity on the character results — every
position, advance, glyph path and bounding box is left unchanged — and it
resolves no node; the running index simply advances over the subtree's
characters. -/
theorem textLength_auto_identity (t : TextNode) (result : List CharacterResult)
    (ci : ℕ) (isHorizontal : Bool) (h : allAuto t = true) :
    applyTextLength t result ci isHorizontal = (result, ci + numChars t, 0) :=
  atlAuto_node t result ci isHorizontal h

/-- A concrete two-level tree with all `textLength` values auto. -/
def c6demo : TextNode :=
  .mk {} LengthAdjust.LengthAdjustSpacing
    (.cons (.mk {} LengthAdjust.LengthAdjustSpacingAndGlyphs .nil 2) .nil) 1

/-- Witness for C6 on the concrete tree and a one-character result list. -/
theorem textLength_auto_identity_witness :
    applyTextLength c6demo [{ visualIndex := 0 }] 0 true =
      ([{ visualIndex := 0 }], 0 + numChars c6demo, 0) :=
  textLength_auto_identity c6demo [{ visualIndex := 0 }] 0 true
    (by simp [c6demo, allAuto, allAutoForest, AutoValue.isAuto])

/-! ### The shape-flowing strategy: the soft-break block of
`flowTextInShapes` (lines 2509–2697) -/

def QRectF.top (r : QRectF) : ℚ := r.ry

def QRectF.bottom (r : QRectF) : ℚ := r.ry + r.rh

def QRectF.left (r : QRectF) : ℚ := r.rx

def QRectF.right (r : QRectF) : ℚ := r.rx + r.rw

def QRectF.topLeft (r : QRectF) : QPointF := ⟨r.rx, r.ry⟩

def QRectF.topRight (r : QRectF) : QPointF := ⟨r.rx + r.rw, r.ry⟩

def QRectF.bottomRight (r : QRectF) : QPointF := ⟨r.rx + r.rw, r.ry + r.rh⟩

/-- `QRectF::setTop`: moves the top edge, keeping the bottom fixed. -/
def QRectF.setTop (r : QRectF) (t : ℚ) : QRectF := ⟨r.rx, t, r.rw, r.ry + r.rh - t⟩

/-- `QRectF::setBottom`: moves the bottom edge, keeping the top fixed. -/
def QRectF.setBottom (r : QRectF) (b : ℚ) : QRectF := ⟨r.rx, r.ry, r.rw, b - r.ry⟩

/-- `QRectF::setLeft`: moves the left edge, keeping the right fixed. -/
def QRectF.setLeft (r : QRectF) (l : ℚ) : QRectF := ⟨l, r.ry, r.rx + r.rw - l, r.rh⟩

/-- `QRectF::setRight`: moves the right edge, keeping the left fixed. -/
def QRectF.setRight (r : QRectF) (x : ℚ) : QRectF := ⟨r.rx, r.ry, x - r.rx, r.rh⟩

/-- `KoSvgText::TextAlign`. -/
inductive TextAlign where
  | AlignLastAuto
  | AlignStart
  | AlignCenter
  | AlignEnd
  | AlignLeft
  | AlignRight
  | AlignJustify
deriving DecidableEq, Repr

/-- `textAnchorForTextAlign` (lines 2488–2507). -/
def textAnchorForTextAlign (align alignLast : TextAlign) (ltr : Bool) : TextAnchor :=
  let compare := if align = TextAlign.AlignJustify then alignLast else align
  if compare = TextAlign.AlignStart then TextAnchor.AnchorStart
  else if compare = TextAlign.AlignCenter then TextAnchor.AnchorMiddle
  else if compare = TextAlign.AlignEnd then TextAnchor.AnchorEnd
  else if compare = TextAlign.AlignLeft then
    (if ltr then TextAnchor.AnchorStart else TextAnchor.AnchorEnd)
  else if compare = TextAlign.AlignRight then
    (if ltr then TextAnchor.AnchorEnd else TextAnchor.AnchorStart)
  else if align = TextAlign.AlignJustify then TextAnchor.AnchorMiddle
  else TextAnchor.AnchorStart

/-- One iteration of `getEstimatedHeight`'s scan (lines 2466–2477), threading
`(stopped, totalAdvance, maxAscent, maxDescent)`. -/
def gehStep (result : List CharacterResult) (boundingBox : QRectF) (isHorizontal : Bool)
    (acc : Bool × QPointF × ℚ × ℚ) (i : ℕ) : Bool × QPointF × ℚ × ℚ :=
  if acc.1 then acc
  else
    let cr := result.getD i default
    if ¬cr.addressable ∨ cr.hidden then acc
    else
      let ta := acc.2.1 + cr.advance
      if (ta.x > boundingBox.width ∧ isHorizontal) ∨
          (ta.y > boundingBox.height ∧ ¬isHorizontal) then
        (true, ta, acc.2.2.1, acc.2.2.2)
      else
        (false, ta, max |cr.ascent - cr.halfLeading| acc.2.2.1,
          max |cr.descent + cr.halfLeading| acc.2.2.2)

/-- `getEstimatedHeight` (lines 2460–2486): estimate the extent of the line
this word starts from the upcoming characters, and widen the word box to it. -/
def getEstimatedHeight (result : List CharacterResult) (index : ℕ)
    (wordBox boundingBox : QRectF) (writingMode : WritingMode) : QRectF :=
  let isHorizontal : Bool := writingMode = WritingMode.HorizontalTB
  let init : Bool × QPointF × ℚ × ℚ :=
    (false, wordBox.bottomRight - wordBox.topLeft,
      if isHorizontal then |wordBox.top| else |wordBox.right|,
      if isHorizontal then |wordBox.bottom| else |wordBox.left|)
  let r := (List.range' index (result.length - index)).foldl
    (gehStep result boundingBox isHorizontal) init
  if isHorizontal then (wordBox.setTop (-r.2.2.1)).setBottom r.2.2.2
  else (wordBox.setRight r.2.2.1).setLeft (-r.2.2.2)

/-- The geometry oracles of the shape-flowing strategy over an abstract
`QPainterPath` type `P`: emptiness, bounding rectangle, the
`getFirstPosition` search (`some` carries the updated `currentPos` written
through the reference on success, lines 2313–2320), and
`findLineBoxesForFirstPos`. -/
structure ShapeGeo (P : Type) where
  isEmptyP : P → Bool
  boundingRect : P → QRectF
  getFirstPosition : QPointF → P → QRectF → QPointF → WritingMode → Bool → Option QPointF
  findLineBoxesForFirstPos : P → QPointF → QRectF → WritingMode → List QLineF

/-- The properties read by `flowTextInShapes`. -/
structure FlowConfig where
  writingMode : WritingMode := WritingMode.HorizontalTB
  direction : Direction := Direction.DirectionLeftToRight
  align : TextAlign := TextAlign.AlignStart
  alignLast : TextAlign := TextAlign.AlignLastAuto
  textIndentInfo : TextIndentInfo := {}
deriving DecidableEq, Repr

def FlowConfig.ltr (c : FlowConfig) : Bool := c.direction = Direction.DirectionLeftToRight

def FlowConfig.isHorizontal (c : FlowConfig) : Bool := c.writingMode = WritingMode.HorizontalTB

def FlowConfig.anchor (c : FlowConfig) : TextAnchor :=
  textAnchorForTextAlign c.align c.alignLast c.ltr

/-- The mutable state threaded through `flowTextInShapes`'s character loop. -/
structure FlowState (P : Type) where
  result : List CharacterResult
  lineBoxes : List LineBox
  currentLine : LineBox
  wordIndices : List ℕ
  wordBox : QRectF
  wordAdvance : QPointF
  currentPos : QPointF
  lineOffset : QPointF
  firstLine : Bool
  indentLine : Bool
  textIndent : QPointF
  currentShape : P
  shapesLeft : List P

/-- Outcome of the in-shape chunk scan (lines 2620–2634). -/
structure FlowScanOut where
  found : Bool
  needNewLine : Bool
  line : LineBox
  pos : QPointF

/-- Outcome of the `while (!foundFirst)` search over the remaining shapes
(lines 2642–2664). -/
structure FlowSearchOut (P : Type) where
  found : Bool
  shape : P
  shapesLeft : List P
  pos : QPointF
  lineOffset : QPointF
  textIndent : QPointF
  indent : QPointF

/-- The `while (!foundFirst)` loop (lines 2642–2664): try `getFirstPosition`
on the current shape; on failure move to the next shape, recompute the text
indent (the `isPercentage` multiplication of the source is a dead store,
overwritten by the following assignment) and restart from its bounding-box
corner. -/
def flowSearch {P : Type} (G : ShapeGeo P) (cfg : FlowConfig) (wb : QRectF) :
    List P → P → QPointF → QPointF → QPointF → QPointF → Bool → FlowSearchOut P
  | shapesLeft, shape, pos, lineOffset, textIndent, indent, indentLine =>
    let fp := G.getFirstPosition pos shape wb lineOffset cfg.writingMode cfg.ltr
    if hfp : fp.isSome then ⟨true, shape, shapesLeft, fp.get hfp, lineOffset, textIndent, indent⟩
    else
      match shapesLeft with
      | [] => ⟨false, shape, [], pos, lineOffset, textIndent, indent⟩
      | s :: rest =>
        let ti1 : QPointF :=
          if cfg.isHorizontal then ⟨cfg.textIndentInfo.value, 0⟩
          else ⟨0, cfg.textIndentInfo.value⟩
        let ind0 := if cfg.textIndentInfo.hanging then !indentLine else indentLine
        let ind1 := if ind0 then ti1 else 0
        let pos1 := if cfg.writingMode = WritingMode.VerticalRL then (G.boundingRect s).topRight
          else (G.boundingRect s).topLeft
        flowSearch G cfg wb rest s pos1 pos1 ti1 ind1 indentLine

/-- Lines 2605–2610: finalize and append a nonempty current line. -/
def fsbFinalizePhase {P : Type} (cfg : FlowConfig) (sq : ℚ → ℚ) (st : FlowState P) :
    FlowState P :=
  if ¬st.currentLine.isEmpty then
    let fl := finalizeLine sq st.result st.currentLine st.lineOffset cfg.anchor cfg.writingMode
      cfg.ltr true true
    { st with
      result := fl.1
      currentPos := fl.2.1
      currentLine := fl.2.2.1
      lineOffset := fl.2.2.2
      lineBoxes := st.lineBoxes ++ [fl.2.2.1]
      firstLine := false
      indentLine := false }
  else st

/-- The indent actually applied to the upcoming line (lines 2614–2615). -/
def fsbIndent {P : Type} (cfg : FlowConfig) (st : FlowState P) : QPointF :=
  if (if cfg.textIndentInfo.hanging then !st.indentLine else st.indentLine) then st.textIndent
  else 0

/-- The word box after `getEstimatedHeight` (line 2619). -/
def fsbWordBox {P : Type} (G : ShapeGeo P) (cfg : FlowConfig) (index : ℕ)
    (st : FlowState P) : QRectF :=
  getEstimatedHeight st.result index st.wordBox (G.boundingRect st.currentShape)
    cfg.writingMode

/-- The position adjusted by the word-box corner (line 2623). -/
def fsbScanPos {P : Type} (cfg : FlowConfig) (st : FlowState P) (wb : QRectF) : QPointF :=
  st.currentPos -
    (if cfg.writingMode = WritingMode.VerticalRL then wb.topRight else wb.topLeft)

/-- The candidate line built inside the current shape (line 2624). -/
def fsbScanLine {P : Type} (G : ShapeGeo P) (cfg : FlowConfig) (st : FlowState P)
    (wb : QRectF) : LineBox :=
  LineBox.ofLineWidths
    (G.findLineBoxesForFirstPos st.currentShape (fsbScanPos cfg st wb) wb cfg.writingMode)
    cfg.ltr (fsbIndent cfg st)

/-- The chunk-scan of lines 2626–2633: the first chunk of the candidate line
longer than the word extent, if any. -/
def fsbScanFind {P : Type} (G : ShapeGeo P) (cfg : FlowConfig) (sq : ℚ → ℚ) (index : ℕ)
    (st : FlowState P) : Option ℕ :=
  (fsbScanLine G cfg st (fsbWordBox G cfg index st)).chunks.findIdx?
    (fun c => decide
      ((if cfg.isHorizontal then (fsbWordBox G cfg index st).width
        else (fsbWordBox G cfg index st).height) < c.length.lengthWith sq))

/-- Lines 2620–2634 as a whole. -/
def fsbScanRes {P : Type} (G : ShapeGeo P) (cfg : FlowConfig) (sq : ℚ → ℚ) (index : ℕ)
    (st : FlowState P) : FlowScanOut :=
  if G.isEmptyP st.currentShape then ⟨false, true, st.currentLine, st.currentPos⟩
  else
    match fsbScanFind G cfg sq index st with
    | some idx =>
      ⟨true, false,
        { fsbScanLine G cfg st (fsbWordBox G cfg index st) with currentChunk := (idx : ℤ) },
        fsbScanPos cfg st (fsbWordBox G cfg index st)⟩
    | none =>
      ⟨false, true, fsbScanLine G cfg st (fsbWordBox G cfg index st),
        fsbScanPos cfg st (fsbWordBox G cfg index st)⟩

/-- The combined scan-then-search outcome feeding line 2665. -/
def fsbSearchRes {P : Type} (G : ShapeGeo P) (cfg : FlowConfig) (sq : ℚ → ℚ) (index : ℕ)
    (st : FlowState P) : FlowSearchOut P :=
  let scan := fsbScanRes G cfg sq index st
  if scan.found then
    ⟨true, st.currentShape, st.shapesLeft, scan.pos, st.lineOffset, st.textIndent,
      fsbIndent cfg st⟩
  else
    flowSearch G cfg (fsbWordBox G cfg index st) st.shapesLeft st.currentShape scan.pos
      st.lineOffset st.textIndent (fsbIndent cfg st) st.indentLine

/-- The fresh line of lines 2667–2670 when a new line is needed. -/
def fsbNewLine {P : Type} (G : ShapeGeo P) (cfg : FlowConfig) (shape : P) (pos : QPointF)
    (wb : QRectF) (ind : QPointF) : LineBox :=
  (LineBox.ofLineWidths (G.findLineBoxesForFirstPos shape pos wb cfg.writingMode) cfg.ltr
    ind).setCurrentChunkForPos pos cfg.isHorizontal

/-- Lines 2672–2675: flags and metrics stamped onto the found line. -/
def fsbDecorate (cfg : FlowConfig) (lb : LineBox) (firstLine : Bool) (wb : QRectF) :
    LineBox :=
  { lb with
    firstLine := firstLine
    expectedLineTop :=
      if cfg.isHorizontal then |wb.top|
      else if cfg.writingMode = WritingMode.VerticalRL then |wb.right| else |wb.left|
    justifyLine := decide (cfg.align = TextAlign.AlignJustify) }

/-- Lines 2611–2684 after the finalize step: scan, search, then either place
the word on the found line (lines 2665–2678) or hide it (lines 2679–2684). -/
def fsbMain {P : Type} (G : ShapeGeo P) (cfg : FlowConfig) (sq : ℚ → ℚ) (index : ℕ)
    (st : FlowState P) : FlowState P :=
  let wb := fsbWordBox G cfg index st
  let scan := fsbScanRes G cfg sq index st
  let s := fsbSearchRes G cfg sq index st
  if s.found then
    let line1 := if scan.needNewLine then fsbNewLine G cfg s.shape s.pos wb s.indent
      else scan.line
    let line2 := fsbDecorate cfg line1 st.firstLine wb
    let pos2 := line2.chunk.length.p1 + s.indent
    let aw := addWordToLine st.result pos2 st.wordIndices line2 cfg.ltr
    { st with
      result := aw.1
      currentLine := aw.2.2
      wordIndices := []
      currentPos := aw.2.1
      lineOffset := pos2
      currentShape := s.shape
      shapesLeft := s.shapesLeft
      textIndent := s.textIndent
      wordBox := wb }
  else
    { st with
      result := st.wordIndices.foldl
        (fun r j => r.set j { r.getD j default with hidden := true }) st.result
      currentLine := {}
      currentPos := s.pos
      lineOffset := s.lineOffset
      currentShape := s.shape
      shapesLeft := s.shapesLeft
      textIndent := s.textIndent
      wordBox := wb }

/-- The full `if (softBreak)` block (lines 2604–2684). -/
def flowSoftBreak {P : Type} (G : ShapeGeo P) (cfg : FlowConfig) (sq : ℚ → ℚ) (index : ℕ)
    (st : FlowState P) : FlowState P :=
  fsbMain G cfg sq index (fsbFinalizePhase cfg sq st)

/-- The line receiving the word when the scan fails but the position search
succeeds at `p` on the current shape. -/
def fsbFoundLine {P : Type} (G : ShapeGeo P) (cfg : FlowConfig) (index : ℕ)
    (st : FlowState P) (p : QPointF) : LineBox :=
  fsbDecorate cfg
    (fsbNewLine G cfg st.currentShape p (fsbWordBox G cfg index st) (fsbIndent cfg st))
    st.firstLine (fsbWordBox G cfg index st)

theorem getD_set_eq_of_lt {α : Type} (l : List α) (i : ℕ) (a d : α) (h : i < l.length) :
    (l.set i a).getD i d = a := by
  induction l generalizing i with
  | nil => simp at h
  | cons b bs ih =>
    cases i with
    | zero => rfl
    | succ n => simpa [List.set, List.getD] using ih n (by simpa using h)

theorem set_preserves_hidden_lineStart (l : List CharacterResult) (i : ℕ)
    (a : CharacterResult) (hh : a.hidden = (l.getD i default).hidden)
    (hs : a.lineStart = (l.getD i default).lineStart) :
    (((l.set i a).getD i default).hidden = (l.getD i default).hidden) ∧
    (((l.set i a).getD i default).lineStart = (l.getD i default).lineStart) := by
  by_cases hlen : i < l.length
  · rw [getD_set_eq_of_lt l i a default hlen]
    exact ⟨hh, hs⟩
  · rw [List.set_eq_of_length_le (le_of_not_lt hlen)]
    exact ⟨rfl, rfl⟩

theorem awtlStep_preserve (f : ℕ) (fl ltr : Bool) (acc : AwtlAcc) (i : ℕ)
    (h : (acc.result.getD i default).lineStart ≠ LineEdgeBehaviour.Collapse) (j : ℕ) :
    (((awtlStep f fl ltr acc i).result.getD j default).hidden =
      (acc.result.getD j default).hidden) ∧
    (((awtlStep f fl ltr acc i).result.getD j default).lineStart =
      (acc.result.getD j default).lineStart) := by
  by_cases hj : j = i
  · subst hj
    unfold awtlStep
    dsimp only
    by_cases hc1 : acc.bbox.isEmpty ∧ j = f
    · rw [if_pos hc1, if_neg h]
      dsimp only
      by_cases hc2 : (acc.result.getD j default).lineStart = LineEdgeBehaviour.HangBehaviour ∧
          fl = true
      · rw [if_pos hc2]
        exact set_preserves_hidden_lineStart _ _ _ rfl rfl
      · rw [if_neg hc2]
        exact set_preserves_hidden_lineStart _ _ _ rfl rfl
    · rw [if_neg hc1]
      exact set_preserves_hidden_lineStart _ _ _ rfl rfl
  · rw [awtlStep_result_ne f fl ltr acc i j hj]
    exact ⟨rfl, rfl⟩

theorem awtl_fold_preserve (f : ℕ) (fl ltr : Bool) (l : List ℕ) (acc : AwtlAcc)
    (h : ∀ i ∈ l, (acc.result.getD i default).lineStart ≠ LineEdgeBehaviour.Collapse) (j : ℕ) :
    (((l.foldl (awtlStep f fl ltr) acc).result.getD j default).hidden =
      (acc.result.getD j default).hidden) ∧
    (((l.foldl (awtlStep f fl ltr) acc).result.getD j default).lineStart =
      (acc.result.getD j default).lineStart) := by
  induction l generalizing acc with
  | nil => exact ⟨rfl, rfl⟩
  | cons i rest ih =>
    rw [List.foldl_cons]
    have hstep := awtlStep_preserve f fl ltr acc i (h i (List.mem_cons_self i rest))
    have hrest : ∀ i' ∈ rest,
        ((awtlStep f fl ltr acc i).result.getD i' default).lineStart ≠
          LineEdgeBehaviour.Collapse := by
      intro i' hm
      rw [(hstep i').2]
      exact h i' (List.mem_cons_of_mem _ hm)
    have hih := ih (awtlStep f fl ltr acc i) hrest
    exact ⟨hih.1.trans (hstep j).1, hih.2.trans (hstep j).2⟩

/-- `addWordToLine` changes no `hidden` flag when no word character has a
collapsing line start (the only hiding in it is the collapse-at-line-start
case of lines 1672–1676). -/
theorem addWordToLine_hidden (result : List CharacterResult) (currentPos : QPointF)
    (word : List ℕ) (lb : LineBox) (ltr : Bool)
    (h : ∀ i ∈ word, (result.getD i default).lineStart ≠ LineEdgeBehaviour.Collapse)
    (j : ℕ) :
    ((addWordToLine result currentPos word lb ltr).1.getD j default).hidden =
      (result.getD j default).hidden := by
  unfold addWordToLine
  exact (awtl_fold_preserve _ _ _ word _ h j).1

theorem setCurrentChunk_of_valid (lb : LineBox) (c : LineChunk)
    (h0 : 0 ≤ lb.currentChunk) (hlt : lb.currentChunk < (lb.chunks.length : ℤ)) :
    lb.setCurrentChunk c = { lb with chunks := lb.chunks.set lb.currentChunk.toNat c } := by
  unfold LineBox.setCurrentChunk
  rw [max_eq_left h0]
  rw [if_pos hlt]

/-- `addWordToLine` on a line whose `currentChunk` is a valid index: the word
indices are appended, in full and in one go, to that single chunk (line
1700), the other chunks untouched. -/
theorem addWordToLine_currentLine_valid (result : List CharacterResult)
    (currentPos : QPointF) (word : List ℕ) (lb : LineBox) (ltr : Bool)
    (h0 : 0 ≤ lb.currentChunk) (hlt : lb.currentChunk < (lb.chunks.length : ℤ)) :
    ∃ bb top bottom,
      (addWordToLine result currentPos word lb ltr).2.2 =
        { lb with
          actualLineTop := top
          actualLineBottom := bottom
          chunks := lb.chunks.set lb.currentChunk.toNat
            { lb.chunk with
              boundingBox := bb
              chunkIndices := lb.chunk.chunkIndices ++ word } } := by
  unfold addWordToLine
  dsimp only
  rw [setCurrentChunk_of_valid _ _ (by exact h0) (by exact hlt)]
  exact ⟨_, _, _, rfl⟩

/-- **C9.** In the shape-flowing strategy, when the current word (the running
`wordIndices`) reaches a soft break with an empty current line and no chunk of
the candidate line is longer than the word (the oversized-word case — there is
no overflow-wrap handling in this strategy), but `getFirstPosition` still finds
a start position `p` in the current shape, then the whole word is appended to
exactly one LineChunk of the found line — with no comparison against the chunk
length — and no character of the buffer is moved into the hidden state. -/
theorem flow_unbreakable_word_single_chunk {P : Type} (G : ShapeGeo P) (cfg : FlowConfig)
    (sq : ℚ → ℚ) (index : ℕ) (st : FlowState P) (p : QPointF)
    (hempty : st.currentLine.isEmpty = true)
    (hshape : G.isEmptyP st.currentShape = false)
    (hscan : fsbScanFind G cfg sq index st = none)
    (hpos : G.getFirstPosition (fsbScanPos cfg st (fsbWordBox G cfg index st))
        st.currentShape (fsbWordBox G cfg index st) st.lineOffset cfg.writingMode
        cfg.ltr = some p)
    (hcc : 0 ≤ (fsbFoundLine G cfg index st p).currentChunk ∧
      (fsbFoundLine G cfg index st p).currentChunk <
        ((fsbFoundLine G cfg index st p).chunks.length : ℤ))
    (hls : ∀ j ∈ st.wordIndices,
      (st.result.getD j default).lineStart ≠ LineEdgeBehaviour.Collapse) :
    (∃ bb top bottom,
      (flowSoftBreak G cfg sq index st).currentLine =
        { fsbFoundLine G cfg index st p with
          actualLineTop := top
          actualLineBottom := bottom
          chunks := (fsbFoundLine G cfg index st p).chunks.set
            (fsbFoundLine G cfg index st p).currentChunk.toNat
            { (fsbFoundLine G cfg index st p).chunk with
              boundingBox := bb
              chunkIndices :=
                (fsbFoundLine G cfg index st p).chunk.chunkIndices ++ st.wordIndices } }) ∧
    (∀ j : ℕ, ((flowSoftBreak G cfg sq index st).result.getD j default).hidden =
      (st.result.getD j default).hidden) ∧
    (flowSoftBreak G cfg sq index st).wordIndices = [] := by
  have hfin : fsbFinalizePhase cfg sq st = st := by
    rw [fsbFinalizePhase, if_neg]
    simp [hempty]
  have hscanres : fsbScanRes G cfg sq index st =
      ⟨false, true, fsbScanLine G cfg st (fsbWordBox G cfg index st),
        fsbScanPos cfg st (fsbWordBox G cfg index st)⟩ := by
    rw [fsbScanRes, hshape]
    rw [if_neg (by simp)]
    rw [hscan]
  have hsearch : fsbSearchRes G cfg sq index st =
      ⟨true, st.currentShape, st.shapesLeft, p, st.lineOffset, st.textIndent,
        fsbIndent cfg st⟩ := by
    rw [fsbSearchRes]
    rw [hscanres]
    dsimp only
    rw [if_neg (by simp)]
    rw [flowSearch.eq_def]
    dsimp only
    rw [hpos]
    rfl
  have hmain : flowSoftBreak G cfg sq index st =
      (let line2 := fsbFoundLine G cfg index st p
       let pos2 := line2.chunk.length.p1 + fsbIndent cfg st
       let aw := addWordToLine st.result pos2 st.wordIndices line2 cfg.ltr
       { st with
         result := aw.1
         currentLine := aw.2.2
         wordIndices := []
         currentPos := aw.2.1
         lineOffset := pos2
         currentShape := st.currentShape
         shapesLeft := st.shapesLeft
         textIndent := st.textIndent
         wordBox := fsbWordBox G cfg index st } : FlowState P) := by
    rw [flowSoftBreak, hfin, fsbMain]
    dsimp only
    rw [hscanres, hsearch]
    dsimp only
    rw [if_pos rfl, if_pos rfl]
    rfl
  rw [hmain]
  dsimp only
  refine ⟨?_, ?_, rfl⟩
  · exact addWordToLine_currentLine_valid st.result _ st.wordIndices _ cfg.ltr hcc.1 hcc.2
  · intro j
    exact addWordToLine_hidden st.result _ st.wordIndices _ cfg.ltr hls j

/-- Concrete geometry for the C9 witness: one all-containing shape whose
line boxes are a single short line (shorter than the word). -/
def c9geo : ShapeGeo ℕ :=
  { isEmptyP := fun _ => false
    boundingRect := fun _ => ⟨0, 0, 100, 100⟩
    getFirstPosition := fun _ _ _ _ _ _ => some ⟨1, 2⟩
    findLineBoxesForFirstPos := fun _ _ _ _ => [⟨⟨0, 0⟩, ⟨1, 0⟩⟩] }

/-- Concrete flow state for the C9 witness: an empty current line and a
one-character unbreakable word wider than every chunk. -/
def c9state : FlowState ℕ :=
  { result := [{}]
    lineBoxes := []
    currentLine := {}
    wordIndices := [0]
    wordBox := ⟨0, 0, 5, 1⟩
    wordAdvance := ⟨5, 0⟩
    currentPos := 0
    lineOffset := 0
    firstLine := true
    indentLine := true
    textIndent := 0
    currentShape := 0
    shapesLeft := [] }

/-- Witness for C9 at the concrete geometry and state. -/
theorem flow_unbreakable_word_single_chunk_witness :
    (∃ bb top bottom,
      (flowSoftBreak c9geo {} (fun _ => 0) 0 c9state).currentLine =
        { fsbFoundLine c9geo {} 0 c9state ⟨1, 2⟩ with
          actualLineTop := top
          actualLineBottom := bottom
          chunks := (fsbFoundLine c9geo {} 0 c9state ⟨1, 2⟩).chunks.set
            (fsbFoundLine c9geo {} 0 c9state ⟨1, 2⟩).currentChunk.toNat
            { (fsbFoundLine c9geo {} 0 c9state ⟨1, 2⟩).chunk with
              boundingBox := bb
              chunkIndices :=
                (fsbFoundLine c9geo {} 0 c9state ⟨1, 2⟩).chunk.chunkIndices ++
                  c9state.wordIndices } }) ∧
    (∀ j : ℕ, ((flowSoftBreak c9geo {} (fun _ => 0) 0 c9state).result.getD j default).hidden =
      (c9state.result.getD j default).hidden) ∧
    (flowSoftBreak c9geo {} (fun _ => 0) 0 c9state).wordIndices = [] :=
  flow_unbreakable_word_single_chunk c9geo {} (fun _ => 0) 0 c9state ⟨1, 2⟩
    (by with_unfolding_all decide) rfl (by with_unfolding_all decide) rfl
    (by with_unfolding_all decide) (by with_unfolding_all decide)

end KoSvgTextShapeProof
